import Mathlib

/-!
The physical page allocator of `kernel/kalloc.c`.

A shallow embedding of the reference-counted page allocator: the free list is the
intrusive singly linked chain that the C code threads through the free pages
themselves, so physical memory is modelled byte by byte, and the reference-count
table holds C `int`s.  Loops (`freerange`, `get_free_pages`) take fuel, and the
lock calls of each operation are recorded by traced copies of the operations.
-/

namespace Kalloc

/-! ## Constants and machine types -/

/-- Bytes per page (`PGSIZE` of `riscv.h`). -/
def PGSIZE : Nat := 4096

/-- The two link-time/configuration constants the allocator reads: `end`, the first
address after the kernel image (defined by `kernel.ld`), and `PHYSTOP`
(`memlayout.h`).  Neither file is part of the sources, so both are parameters. -/
structure MemLayout where
  kend : Nat
  PHYSTOP : Nat

/-- What is assumed of these constants: `PHYSTOP` is a whole number of pages; it is a
`uint64` constant below the last page of the address space, so that `p + PGSIZE`
does not wrap around for any `p` up to `PHYSTOP`; and the kernel image is not empty,
so that `end` is not the null address. -/
def MemLayout.Valid (L : MemLayout) : Prop :=
  L.PHYSTOP % PGSIZE = 0 ∧ L.PHYSTOP + PGSIZE < 18446744073709551616 ∧ 0 < L.kend

instance (L : MemLayout) : Decidable L.Valid := by
  unfold MemLayout.Valid; exact inferInstance

/-- Reduction of an integer to the range of a 32-bit two's complement `int`. -/
def wrapInt32 (x : Int) : Int := (x + 2147483648) % 4294967296 - 2147483648

/-- A C `int`: an integer in `[-2^31, 2^31 - 1]`. -/
def CInt : Type := { c : Int // -2147483648 ≤ c ∧ c ≤ 2147483647 }

/-- Conversion to `int`.  Signed overflow is undefined in C; the 32-bit add of the
target machine wraps around, and that is what is modelled. -/
def CInt.ofInt (x : Int) : CInt :=
  ⟨wrapInt32 x, by unfold wrapInt32; omega⟩

/-- A byte of physical memory. -/
abbrev Byte : Type := Fin 256

/-- The low eight bits of a number, as a byte. -/
def Byte.ofNat (n : Nat) : Byte := ⟨n % 256, Nat.mod_lt _ (by decide)⟩

/-- Physical memory, byte addressed. -/
abbrev Mem : Type := Nat → Byte

/-- The call `memset(dst, c, n)`: the `n` bytes from `dst` are set to `(unsigned char)c`. -/
def memset (mem : Mem) (dst c n : Nat) : Mem :=
  fun a => if dst ≤ a ∧ a < dst + n then Byte.ofNat c else mem a

/-- Load of a 64-bit little-endian word (a `struct run *`) from address `a`. -/
def read64 (mem : Mem) (a : Nat) : Nat :=
  (mem a).val + 256 * ((mem (a + 1)).val + 256 * ((mem (a + 2)).val
    + 256 * ((mem (a + 3)).val + 256 * ((mem (a + 4)).val + 256 * ((mem (a + 5)).val
    + 256 * ((mem (a + 6)).val + 256 * (mem (a + 7)).val))))))

/-- Store of the 64-bit little-endian word `v` at address `a`. -/
def write64 (mem : Mem) (a v : Nat) : Mem :=
  fun x =>
    if x = a then Byte.ofNat v
    else if x = a + 1 then Byte.ofNat (v / 256)
    else if x = a + 2 then Byte.ofNat (v / 256 / 256)
    else if x = a + 3 then Byte.ofNat (v / 256 / 256 / 256)
    else if x = a + 4 then Byte.ofNat (v / 256 / 256 / 256 / 256)
    else if x = a + 5 then Byte.ofNat (v / 256 / 256 / 256 / 256 / 256)
    else if x = a + 6 then Byte.ofNat (v / 256 / 256 / 256 / 256 / 256 / 256)
    else if x = a + 7 then Byte.ofNat (v / 256 / 256 / 256 / 256 / 256 / 256 / 256)
    else mem x

/-! ## Allocator state -/

/-- The allocator's mutable state: `kmem.freelist` (0 is the null pointer),
`page_ref.count`, and the physical memory in which the free list is threaded. -/
structure KState where
  freelist : Nat
  count : Nat → CInt
  mem : Mem

/-- How a call can end without returning: `panic(msg)`, or an access to
`page_ref.count` outside its `PHYSTOP / PGSIZE` entries. -/
inductive Fault where
  | panic (msg : String)
  | outOfBounds
  deriving DecidableEq, Repr

/-- Result of a call: it returns `val` in state `s`, or stops with a fault in the
state reached at that point. -/
inductive Outcome (α : Type) where
  | ok (val : α) (s : KState)
  | fault (f : Fault) (s : KState)

/-- The state in which a call ended. -/
def Outcome.state {α : Type} : Outcome α → KState
  | .ok _ s => s
  | .fault _ s => s

/-- The value returned, if the call returned. -/
def Outcome.val? {α : Type} : Outcome α → Option α
  | .ok v _ => some v
  | .fault _ _ => none

/-- The fault a call stopped with, if any. -/
def Outcome.fault? {α : Type} : Outcome α → Option Fault
  | .ok _ _ => none
  | .fault f _ => some f

/-! ## The operations of `kalloc.c` -/

/-- The function `kfree(pa)`. -/
def kfree (L : MemLayout) (pa : Nat) (s : KState) : Outcome Unit :=
  if pa % PGSIZE ≠ 0 ∨ pa < L.kend ∨ pa ≥ L.PHYSTOP then
    .fault (.panic "kfree") s
  else if pa / PGSIZE < L.PHYSTOP / PGSIZE then
    if (s.count (pa / PGSIZE)).val > 1 then
      .ok () { s with
        count := Function.update s.count (pa / PGSIZE)
          (CInt.ofInt ((s.count (pa / PGSIZE)).val - 1)) }
    else
      .ok () {
        count := Function.update s.count (pa / PGSIZE) (CInt.ofInt 0)
        mem := write64 (memset s.mem pa 1 PGSIZE) pa s.freelist
        freelist := pa }
  else
    .fault .outOfBounds s

/-- The function `kalloc()`; the value returned is the page address, 0 for none. -/
def kalloc (L : MemLayout) (s : KState) : Outcome Nat :=
  let r := s.freelist
  if r ≠ 0 then
    let s1 : KState := { s with freelist := read64 s.mem r }
    let s2 : KState := { s1 with mem := memset s1.mem r 5 PGSIZE }
    if r / PGSIZE < L.PHYSTOP / PGSIZE then
      .ok r { s2 with count := Function.update s2.count (r / PGSIZE) (CInt.ofInt 1) }
    else
      .fault .outOfBounds s2
  else
    .ok r s

/-- The function `incref(pa)`. -/
def incref (L : MemLayout) (pa : Nat) (s : KState) : Outcome Unit :=
  if pa < L.kend ∨ pa ≥ L.PHYSTOP then
    .fault (.panic "incref: address out of bounds") s
  else if pa / PGSIZE < L.PHYSTOP / PGSIZE then
    .ok () { s with
      count := Function.update s.count (pa / PGSIZE)
        (CInt.ofInt ((s.count (pa / PGSIZE)).val + 1)) }
  else
    .fault .outOfBounds s

/-- The loop of `get_free_pages`: follow `next` links from `r` until the null
pointer, counting in a `uint64`.  `none` when the fuel runs out first. -/
def get_free_pages_loop (mem : Mem) : Nat → Nat → Nat → Option Nat
  | _, 0, count => some count
  | 0, _ + 1, _ => none
  | fuel + 1, r + 1, count =>
    get_free_pages_loop mem fuel (read64 mem (r + 1)) ((count + 1) % 18446744073709551616)

/-- The function `get_free_pages()`: the `uint64` counter is returned as an `int`. -/
def get_free_pages (fuel : Nat) (s : KState) : Option (Int × KState) :=
  (get_free_pages_loop s.mem fuel s.freelist 0).map
    (fun c => (wrapInt32 (c : Int), s))

/-! ## Specification vocabulary -/

/-- A frame of the managed range: a page-aligned address in `[end, PHYSTOP)`. -/
def IsFrame (L : MemLayout) (pa : Nat) : Prop :=
  pa % PGSIZE = 0 ∧ L.kend ≤ pa ∧ pa < L.PHYSTOP

instance (L : MemLayout) (pa : Nat) : Decidable (IsFrame L pa) := by
  unfold IsFrame; exact inferInstance

/-- The chain of `next` links that starts at `head` and ends at the null pointer
visits exactly the addresses of `l`, in this order. -/
def FreeList (mem : Mem) : Nat → List Nat → Prop
  | head, [] => head = 0
  | head, f :: l => head = f ∧ f ≠ 0 ∧ FreeList mem (read64 mem f) l

instance FreeList.decide (mem : Mem) : (head : Nat) → (l : List Nat) →
    Decidable (FreeList mem head l)
  | head, [] => by unfold FreeList; exact inferInstance
  | head, f :: l => by
    unfold FreeList
    have := FreeList.decide mem (read64 mem f) l
    exact inferInstance

/-- Run the call `op` `n` times in a row, stopping at the first fault. -/
def repeatCall (op : KState → Outcome Unit) : Nat → KState → Outcome Unit
  | 0, s => .ok () s
  | n + 1, s =>
    match op s with
    | .ok _ s' => repeatCall op n s'
    | .fault f s' => .fault f s'

/-! ## A small machine, used to evaluate the operations -/

/-- A layout with three managed frames, 8192, 12288 and 16384; the kernel image ends
inside the page before them. -/
def L0 : MemLayout := ⟨8000, 20480⟩

/-- Memory holding the chain 8192 → 12288 → null, and zero elsewhere. -/
def mem0 : Mem := write64 (write64 (fun _ => 0) 12288 0) 8192 12288

/-- Free list 8192, 12288; every reference count 0. -/
def s0 : KState := ⟨8192, fun _ => CInt.ofInt 0, mem0⟩

/-- Nothing is free; every reference count 0. -/
def sEmpty : KState := ⟨0, fun _ => CInt.ofInt 0, fun _ => 0⟩

/-- Frame 8192 is allocated and shared by three owners; 12288 is the only free frame. -/
def sShared : KState :=
  ⟨12288, Function.update (fun _ => CInt.ofInt 0) 2 (CInt.ofInt 3), mem0⟩

/-- Frame 8192 is allocated with a single owner; 12288 is the only free frame. -/
def sOwned : KState :=
  ⟨12288, Function.update (fun _ => CInt.ofInt 0) 2 (CInt.ofInt 1), mem0⟩

/-- Frame 8192 is the only free frame (its link is null) and its count is 0. -/
def sFreed : KState := ⟨8192, fun _ => CInt.ofInt 0, fun _ => 0⟩

/-- The state right after kalloc has returned frame 8192 from `s0`. -/
def sAlloc : KState := (kalloc L0 s0).state

/-- Frame 8192 is allocated and its count has reached `INT_MAX`. -/
def sMax : KState :=
  ⟨12288, Function.update (fun _ => CInt.ofInt 0) 2 (CInt.ofInt 2147483647), mem0⟩


/-! ## Boot-time seeding -/

/-- Modelled from the spec: the macro `PGROUNDUP` of `riscv.h`, which is not part of
the sources; it "rounds the start up to the next frame boundary", here in `uint64`
arithmetic. -/
def PGROUNDUP (sz : Nat) : Nat :=
  (sz + PGSIZE - 1) % 18446744073709551616 / PGSIZE * PGSIZE

/-- The loop of `freerange`, entered with pointer `p`.  Besides the outcome it reports
the arguments of its calls to `kfree`, in order.  `none` when the fuel runs out. -/
def freerange_loop (L : MemLayout) (pa_end : Nat) :
    Nat → Nat → KState → Option (Outcome Unit × List Nat)
  | 0, p, s =>
    if (p + PGSIZE) % 18446744073709551616 ≤ pa_end then none else some (.ok () s, [])
  | fuel + 1, p, s =>
    if (p + PGSIZE) % 18446744073709551616 ≤ pa_end then
      match kfree L p s with
      | .ok _ s' =>
        (freerange_loop L pa_end fuel ((p + PGSIZE) % 18446744073709551616) s').map
          (fun r => (r.1, p :: r.2))
      | .fault f s' => some (.fault f s', [p])
    else some (.ok () s, [])

/-- The function `freerange(pa_start, pa_end)`, with the list of its `kfree` calls. -/
def freerange (L : MemLayout) (fuel pa_start pa_end : Nat) (s : KState) :
    Option (Outcome Unit × List Nat) :=
  freerange_loop L pa_end fuel (PGROUNDUP pa_start) s

/-- The function `kinit()`; `initlock` only names the two locks. -/
def kinit (L : MemLayout) (fuel : Nat) (s : KState) : Option (Outcome Unit) :=
  (freerange L fuel L.kend L.PHYSTOP s).map Prod.fst

/-- The `n` consecutive page addresses from `p` on. -/
def pages (p : Nat) : Nat → List Nat
  | 0 => []
  | n + 1 => p :: pages (p + PGSIZE) n

/-- Call kalloc `n` times in a row and collect the values returned. -/
def kallocN (L : MemLayout) : Nat → KState → Outcome (List Nat)
  | 0, s => .ok [] s
  | n + 1, s =>
    match kalloc L s with
    | .ok r s' =>
      match kallocN L n s' with
      | .ok rs s'' => .ok (r :: rs) s''
      | .fault f s'' => .fault f s''
    | .fault f s' => .fault f s'

/-- A call of one of the three operations that change the allocator state. -/
inductive Op where
  | kalloc
  | kfree (pa : Nat)
  | incref (pa : Nat)

/-- Perform the call; the value kalloc returns is dropped. -/
def callOp (L : MemLayout) : Op → KState → Outcome Unit
  | .kalloc, s =>
    match kalloc L s with
    | .ok _ s' => .ok () s'
    | .fault f s' => .fault f s'
  | .kfree pa, s => kfree L pa s
  | .incref pa, s => incref L pa s

/-- Run a sequence of calls, each allowed by `guard` in the state it is made in;
`none` if a call is not allowed or ends in a fault. -/
def runOps (L : MemLayout) (guard : KState → Op → Bool) : List Op → KState → Option KState
  | [], s => some s
  | op :: ops, s =>
    if guard s op then
      match callOp L op s with
      | .ok _ s' => runOps L guard ops s'
      | .fault _ _ => none
    else none

/-- No restriction on the calls. -/
def anyCall (_ : KState) (_ : Op) : Bool := true

/-- The call does not increment a count that is already `INT_MAX`. -/
def noOverflow (s : KState) : Op → Bool
  | .incref pa => decide ((s.count (pa / PGSIZE)).val < 2147483647)
  | _ => true

/-- The caller's protocol: kalloc at any time, kfree and incref only on a frame of the
managed range whose reference count is at least 1. -/
def followsProtocol (L : MemLayout) (s : KState) : Op → Bool
  | .kalloc => true
  | .kfree pa => decide (IsFrame L pa ∧ 1 ≤ (s.count (pa / PGSIZE)).val)
  | .incref pa => decide (IsFrame L pa ∧ 1 ≤ (s.count (pa / PGSIZE)).val)







/-- The allocator's state invariant: the free list is a null-terminated chain that
holds no frame twice and only frames of the managed range, and a frame of the
managed range is in it exactly when its reference count is 0. -/
def AllocatorInv (L : MemLayout) (s : KState) : Prop :=
  ∃ l, FreeList s.mem s.freelist l ∧ l.Nodup ∧ (∀ g, g ∈ l → IsFrame L g) ∧
    ∀ g, IsFrame L g → (g ∈ l ↔ (s.count (g / PGSIZE)).val = 0)



/-- A machine with 2147483648 managed frames: `end` is 2^34 and `PHYSTOP` is
2^34 + 2^43.  The kernel image, which contains the static table `page_ref.count` of
`PHYSTOP / PGSIZE` ints (8606711808 bytes), fits below `end` even when it is loaded
at 0x80000000. -/
def Lbig : MemLayout := ⟨17179869184, 8813272891392⟩

/-- The state of the machine `Lbig` after kinit, run on an empty free list and a
zeroed table. -/
def sBig : KState :=
  ((kinit Lbig 2147483648 sEmpty).map Outcome.state).getD sEmpty




/-! ## Lock events -/

/-- The two spinlocks: `kmem.lock` and `page_ref.lock`. -/
inductive Lock where
  | kmem
  | page_ref
  deriving DecidableEq, Repr

/-- A call of `acquire` or of `release` on one of the locks. -/
inductive LockEv where
  | acquire (l : Lock)
  | release (l : Lock)
  deriving DecidableEq, Repr

/-- The function `kfree(pa)` together with the lock calls it makes, in order. -/
def kfree_ev (L : MemLayout) (pa : Nat) (s : KState) : Outcome Unit × List LockEv :=
  if pa % PGSIZE ≠ 0 ∨ pa < L.kend ∨ pa ≥ L.PHYSTOP then
    (.fault (.panic "kfree") s, [])
  else if pa / PGSIZE < L.PHYSTOP / PGSIZE then
    if (s.count (pa / PGSIZE)).val > 1 then
      (.ok () { s with
        count := Function.update s.count (pa / PGSIZE)
          (CInt.ofInt ((s.count (pa / PGSIZE)).val - 1)) },
        [.acquire .page_ref, .release .page_ref])
    else
      (.ok () {
        count := Function.update s.count (pa / PGSIZE) (CInt.ofInt 0)
        mem := write64 (memset s.mem pa 1 PGSIZE) pa s.freelist
        freelist := pa },
        [.acquire .page_ref, .release .page_ref, .acquire .kmem, .release .kmem])
  else
    (.fault .outOfBounds s, [.acquire .page_ref])

/-- The function `kalloc()` together with the lock calls it makes, in order. -/
def kalloc_ev (L : MemLayout) (s : KState) : Outcome Nat × List LockEv :=
  let r := s.freelist
  if r ≠ 0 then
    let s1 : KState := { s with freelist := read64 s.mem r }
    let s2 : KState := { s1 with mem := memset s1.mem r 5 PGSIZE }
    if r / PGSIZE < L.PHYSTOP / PGSIZE then
      (.ok r { s2 with count := Function.update s2.count (r / PGSIZE) (CInt.ofInt 1) },
        [.acquire .kmem, .release .kmem, .acquire .page_ref, .release .page_ref])
    else
      (.fault .outOfBounds s2, [.acquire .kmem, .release .kmem, .acquire .page_ref])
  else
    (.ok r s, [.acquire .kmem, .release .kmem])

/-- The function `incref(pa)` together with the lock calls it makes, in order. -/
def incref_ev (L : MemLayout) (pa : Nat) (s : KState) : Outcome Unit × List LockEv :=
  if pa < L.kend ∨ pa ≥ L.PHYSTOP then
    (.fault (.panic "incref: address out of bounds") s, [])
  else if pa / PGSIZE < L.PHYSTOP / PGSIZE then
    (.ok () { s with
      count := Function.update s.count (pa / PGSIZE)
        (CInt.ofInt ((s.count (pa / PGSIZE)).val + 1)) },
      [.acquire .page_ref, .release .page_ref])
  else
    (.fault .outOfBounds s, [.acquire .page_ref])

/-- The function `get_free_pages()` together with the lock calls it makes: the walk
of the free list runs between `acquire(&kmem.lock)` and `release(&kmem.lock)`.  When
the walk does not end within the fuel the call has not returned, and the only lock
call made so far is the `acquire`. -/
def get_free_pages_ev (fuel : Nat) (s : KState) :
    Option (Int × KState) × List LockEv :=
  match get_free_pages_loop s.mem fuel s.freelist 0 with
  | some c => (some (wrapInt32 (c : Int), s), [.acquire .kmem, .release .kmem])
  | none => (none, [.acquire .kmem])

/-- Follow a sequence of lock calls from the situation `held` (the lock held, if
any): an `acquire` is allowed only while no lock is held, a `release` only of the
lock that is held.  The result is the lock held at the end, or `none` if a call was
not allowed. -/
def locksAfter : Option Lock → List LockEv → Option (Option Lock)
  | held, [] => some held
  | none, .acquire l :: es => locksAfter (some l) es
  | some _, .acquire _ :: _ => none
  | some h, .release l :: es => if h = l then locksAfter none es else none
  | none, .release _ :: _ => none

/-- Locks are taken one at a time: starting with no lock held, every call is allowed
and no lock is held at the end. -/
def SequentialLocks (es : List LockEv) : Prop := locksAfter none es = some none

instance (es : List LockEv) : Decidable (SequentialLocks es) := by
  unfold SequentialLocks; exact inferInstance

/-- No lock is taken while another is held: starting with no lock held, every call
of the sequence is allowed.  A lock may still be held at the end. -/
def NeverNested (es : List LockEv) : Prop := (locksAfter none es).isSome = true

instance (es : List LockEv) : Decidable (NeverNested es) := by
  unfold NeverNested; exact inferInstance

/-- The small machine after kinit: free list 16384, 12288, 8192. -/
def sBoot : KState := ((kinit L0 3 sEmpty).map Outcome.state).getD sEmpty

/-- The small machine after boot, one kalloc (which returns 16384) and two calls of
kfree(16384): the link of frame 16384 points to the frame itself. -/
def sCycle : KState :=
  (runOps L0 anyCall [Op.kalloc, Op.kfree 16384, Op.kfree 16384] sBoot).getD sEmpty


/-! ## Machine arithmetic and memory lemmas -/

theorem wrapInt32_of_range (x : Int) (h1 : -2147483648 ≤ x) (h2 : x ≤ 2147483647) :
    wrapInt32 x = x := by
  unfold wrapInt32; omega

theorem CInt.ofInt_val (x : Int) : (CInt.ofInt x).val = wrapInt32 x := rfl

theorem CInt.ofInt_val_of_range (x : Int) (h1 : -2147483648 ≤ x) (h2 : x ≤ 2147483647) :
    (CInt.ofInt x).val = x := by
  rw [CInt.ofInt_val, wrapInt32_of_range x h1 h2]

theorem CInt.range (c : CInt) : -2147483648 ≤ c.val ∧ c.val ≤ 2147483647 := c.property

theorem memset_outside (mem : Mem) (dst c n a : Nat) (h : a < dst ∨ dst + n ≤ a) :
    memset mem dst c n a = mem a := by
  unfold memset
  rw [if_neg]
  omega

theorem memset_inside (mem : Mem) (dst c n a : Nat) (h1 : dst ≤ a) (h2 : a < dst + n) :
    memset mem dst c n a = Byte.ofNat c := by
  unfold memset
  rw [if_pos ⟨h1, h2⟩]

theorem write64_outside (mem : Mem) (a v x : Nat) (h : x < a ∨ a + 8 ≤ x) :
    write64 mem a v x = mem x := by
  unfold write64
  have e0 : x ≠ a := by omega
  have e1 : x ≠ a + 1 := by omega
  have e2 : x ≠ a + 2 := by omega
  have e3 : x ≠ a + 3 := by omega
  have e4 : x ≠ a + 4 := by omega
  have e5 : x ≠ a + 5 := by omega
  have e6 : x ≠ a + 6 := by omega
  have e7 : x ≠ a + 7 := by omega
  simp only [e0, e1, e2, e3, e4, e5, e6, e7, if_false]

theorem read64_lt (mem : Mem) (a : Nat) : read64 mem a < 18446744073709551616 := by
  unfold read64
  have h0 := (mem a).isLt
  have h1 := (mem (a + 1)).isLt
  have h2 := (mem (a + 2)).isLt
  have h3 := (mem (a + 3)).isLt
  have h4 := (mem (a + 4)).isLt
  have h5 := (mem (a + 5)).isLt
  have h6 := (mem (a + 6)).isLt
  have h7 := (mem (a + 7)).isLt
  omega

theorem read64_congr (mem mem' : Mem) (a : Nat)
    (h : ∀ i, i < 8 → mem' (a + i) = mem (a + i)) : read64 mem' a = read64 mem a := by
  unfold read64
  have h0 := h 0 (by omega)
  rw [Nat.add_zero] at h0
  rw [h0, h 1 (by omega), h 2 (by omega), h 3 (by omega), h 4 (by omega), h 5 (by omega),
    h 6 (by omega), h 7 (by omega)]

theorem read64_write64 (mem : Mem) (a v : Nat) (hv : v < 18446744073709551616) :
    read64 (write64 mem a v) a = v := by
  unfold read64 write64 Byte.ofNat
  simp
  omega


/-! ## The free list as a chain in memory -/

theorem FreeList.congr (mem mem' : Mem) :
    ∀ (l : List Nat) (head : Nat),
      (∀ g, g ∈ l → ∀ i, i < 8 → mem' (g + i) = mem (g + i)) →
      FreeList mem head l → FreeList mem' head l
  | [], _, _, h => h
  | f :: l, head, hm, h => by
    unfold FreeList at h ⊢
    obtain ⟨h1, h2, h3⟩ := h
    refine ⟨h1, h2, ?_⟩
    rw [read64_congr mem mem' f (hm f (List.mem_cons_self f l))]
    exact FreeList.congr mem mem' l _ (fun g hg => hm g (List.mem_cons_of_mem f hg)) h3

theorem FreeList.unique (mem : Mem) :
    ∀ (l1 l2 : List Nat) (head : Nat),
      FreeList mem head l1 → FreeList mem head l2 → l1 = l2
  | [], [], _, _, _ => rfl
  | [], g :: l2, head, h1, h2 => by
    unfold FreeList at h1 h2
    omega
  | f :: l1, [], head, h1, h2 => by
    unfold FreeList at h1 h2
    omega
  | f :: l1, g :: l2, head, h1, h2 => by
    unfold FreeList at h1 h2
    obtain ⟨a1, _, a3⟩ := h1
    obtain ⟨b1, _, b3⟩ := h2
    have hfg : f = g := by omega
    subst hfg
    rw [FreeList.unique mem l1 l2 _ a3 b3]

theorem FreeList.suffix (mem : Mem) :
    ∀ (l1 : List Nat) (f : Nat) (l2 : List Nat) (head : Nat),
      FreeList mem head (l1 ++ f :: l2) → FreeList mem f (f :: l2)
  | [], f, l2, head, h => by
    rw [List.nil_append] at h
    unfold FreeList at h ⊢
    exact ⟨rfl, h.2.1, h.2.2⟩
  | g :: l1, f, l2, head, h => by
    rw [List.cons_append] at h
    unfold FreeList at h
    exact FreeList.suffix mem l1 f l2 _ h.2.2

theorem FreeList.head_not_mem (mem : Mem) (f : Nat) (l : List Nat) (head : Nat)
    (h : FreeList mem head (f :: l)) : f ∉ l := by
  intro hmem
  obtain ⟨l1, l2, hl⟩ := List.append_of_mem hmem
  have hf : head = f := by
    unfold FreeList at h
    exact h.1
  subst hf
  have hs : FreeList mem head (head :: l2) := by
    have h' : FreeList mem head ((head :: l1) ++ head :: l2) := by
      rw [List.cons_append, ← hl]; exact h
    exact FreeList.suffix mem (head :: l1) head l2 head h'
  have he := FreeList.unique mem _ _ head h hs
  rw [hl] at he
  have hlen := congrArg List.length he
  simp at hlen
  omega

theorem FreeList.nodup (mem : Mem) :
    ∀ (l : List Nat) (head : Nat), FreeList mem head l → l.Nodup
  | [], _, _ => List.nodup_nil
  | f :: l, head, h => by
    refine List.nodup_cons.mpr ⟨FreeList.head_not_mem mem f l head h, ?_⟩
    unfold FreeList at h
    exact FreeList.nodup mem l _ h.2.2

theorem get_free_pages_loop_eq (mem : Mem) :
    ∀ (l : List Nat) (head fuel count : Nat),
      FreeList mem head l → l.length ≤ fuel →
      get_free_pages_loop mem fuel head count
        = some (if l = [] then count else (count + l.length) % 18446744073709551616)
  | [], head, fuel, count, h, _ => by
    unfold FreeList at h
    subst h
    unfold get_free_pages_loop
    simp
  | f :: l, head, 0, count, _, hfuel => by
    simp at hfuel
  | f :: l, head, fuel + 1, count, h, hfuel => by
    unfold FreeList at h
    obtain ⟨h1, h2, h3⟩ := h
    subst h1
    obtain ⟨r, rfl⟩ := Nat.exists_eq_succ_of_ne_zero h2
    have hlen : l.length ≤ fuel := by
      simp at hfuel; omega
    unfold get_free_pages_loop
    rw [get_free_pages_loop_eq mem l _ fuel _ h3 hlen]
    cases l with
    | nil => simp
    | cons g l' => simp; omega

theorem get_free_pages_eq (s : KState) (l : List Nat) (fuel : Nat)
    (h : FreeList s.mem s.freelist l) (hfuel : l.length ≤ fuel) :
    get_free_pages fuel s
      = some (wrapInt32 ((l.length % 18446744073709551616 : Nat) : Int), s) := by
  unfold get_free_pages
  rw [get_free_pages_loop_eq s.mem l s.freelist fuel 0 h hfuel]
  cases l with
  | nil => simp
  | cons g l' => simp


/-! ## The operations, path by path -/

theorem index_in_bounds (L : MemLayout) (hL : L.Valid) (pa : Nat) (h : pa < L.PHYSTOP) :
    pa / PGSIZE < L.PHYSTOP / PGSIZE := by
  have h1 := hL.1
  unfold PGSIZE at *
  omega

theorem link_outside_page (f g i : Nat) (hf : f % PGSIZE = 0) (hg : g % PGSIZE = 0)
    (hne : g ≠ f) (hi : i < 8) : g + i < f ∨ f + PGSIZE ≤ g + i := by
  unfold PGSIZE at *
  omega

theorem FreeList.head_lt (mem : Mem) (head : Nat) (l : List Nat) (bound : Nat)
    (h : FreeList mem head l) (hb : ∀ g, g ∈ l → g < bound) (hpos : 0 < bound) :
    head < bound := by
  cases l with
  | nil => unfold FreeList at h; omega
  | cons f l' =>
    unfold FreeList at h
    rw [h.1]
    exact hb f (List.mem_cons_self f l')

theorem kalloc_nonempty (L : MemLayout) (s : KState) (h0 : s.freelist ≠ 0)
    (hidx : s.freelist / PGSIZE < L.PHYSTOP / PGSIZE) :
    kalloc L s = .ok s.freelist
      { freelist := read64 s.mem s.freelist
        count := Function.update s.count (s.freelist / PGSIZE) (CInt.ofInt 1)
        mem := memset s.mem s.freelist 5 PGSIZE } := by
  unfold kalloc
  simp only [h0, ne_eq, not_false_eq_true, if_true, hidx]

theorem kalloc_null (L : MemLayout) (s : KState) (h0 : s.freelist = 0) :
    kalloc L s = .ok 0 s := by
  unfold kalloc
  simp [h0]

theorem kfree_fatal (L : MemLayout) (pa : Nat) (s : KState)
    (h : pa % PGSIZE ≠ 0 ∨ pa < L.kend ∨ pa ≥ L.PHYSTOP) :
    kfree L pa s = .fault (.panic "kfree") s := by
  unfold kfree
  rw [if_pos h]

theorem kfree_decrement (L : MemLayout) (pa : Nat) (s : KState) (hL : L.Valid)
    (hpa : IsFrame L pa) (hc : (s.count (pa / PGSIZE)).val > 1) :
    kfree L pa s = .ok () { s with
      count := Function.update s.count (pa / PGSIZE)
        (CInt.ofInt ((s.count (pa / PGSIZE)).val - 1)) } := by
  have hidx := index_in_bounds L hL pa hpa.2.2
  have hg : ¬ (pa % PGSIZE ≠ 0 ∨ pa < L.kend ∨ pa ≥ L.PHYSTOP) := by
    have h1 := hpa.1
    have h2 := hpa.2.1
    have h3 := hpa.2.2
    omega
  unfold kfree
  rw [if_neg hg, if_pos hidx, if_pos hc]

theorem kfree_release (L : MemLayout) (pa : Nat) (s : KState) (hL : L.Valid)
    (hpa : IsFrame L pa) (hc : ¬ (s.count (pa / PGSIZE)).val > 1) :
    kfree L pa s = .ok () {
      count := Function.update s.count (pa / PGSIZE) (CInt.ofInt 0)
      mem := write64 (memset s.mem pa 1 PGSIZE) pa s.freelist
      freelist := pa } := by
  have hidx := index_in_bounds L hL pa hpa.2.2
  have hg : ¬ (pa % PGSIZE ≠ 0 ∨ pa < L.kend ∨ pa ≥ L.PHYSTOP) := by
    have h1 := hpa.1
    have h2 := hpa.2.1
    have h3 := hpa.2.2
    omega
  unfold kfree
  rw [if_neg hg, if_pos hidx, if_neg hc]

theorem incref_fatal (L : MemLayout) (pa : Nat) (s : KState)
    (h : pa < L.kend ∨ pa ≥ L.PHYSTOP) :
    incref L pa s = .fault (.panic "incref: address out of bounds") s := by
  unfold incref
  rw [if_pos h]

theorem incref_bump (L : MemLayout) (pa : Nat) (s : KState) (hL : L.Valid)
    (h1 : L.kend ≤ pa) (h2 : pa < L.PHYSTOP) :
    incref L pa s = .ok () { s with
      count := Function.update s.count (pa / PGSIZE)
        (CInt.ofInt ((s.count (pa / PGSIZE)).val + 1)) } := by
  have hidx := index_in_bounds L hL pa h2
  have hg : ¬ (pa < L.kend ∨ pa ≥ L.PHYSTOP) := by omega
  unfold incref
  rw [if_neg hg, if_pos hidx]

/-- Dequeuing the head page and filling it with junk leaves the rest of the chain
intact, because the other free pages are distinct aligned pages. -/
theorem FreeList.after_kalloc (s : KState) (f : Nat) (l : List Nat)
    (hfl : FreeList s.mem s.freelist (f :: l)) (hf : f % PGSIZE = 0)
    (hal : ∀ g, g ∈ l → g % PGSIZE = 0) :
    FreeList (memset s.mem f 5 PGSIZE) (read64 s.mem f) l := by
  have hnot := FreeList.head_not_mem s.mem f l s.freelist hfl
  unfold FreeList at hfl
  refine FreeList.congr s.mem _ l _ ?_ hfl.2.2
  intro g hg i hi
  apply memset_outside
  have hne : g ≠ f := fun e => hnot (e ▸ hg)
  exact link_outside_page f g i hf (hal g hg) hne hi

/-- Poisoning page `pa` and storing the old head in its first word puts `pa` in
front of the chain, provided `pa` is not one of the chain's pages. -/
theorem FreeList.after_kfree (s : KState) (pa : Nat) (l : List Nat)
    (hfl : FreeList s.mem s.freelist l) (hpa : pa % PGSIZE = 0) (hpos : pa ≠ 0)
    (hal : ∀ g, g ∈ l → g % PGSIZE = 0) (hnot : pa ∉ l)
    (hhead : s.freelist < 18446744073709551616) :
    FreeList (write64 (memset s.mem pa 1 PGSIZE) pa s.freelist) pa (pa :: l) := by
  unfold FreeList
  refine ⟨rfl, hpos, ?_⟩
  rw [read64_write64 _ pa s.freelist hhead]
  refine FreeList.congr s.mem _ l _ ?_ hfl
  intro g hg i hi
  have hne : g ≠ pa := fun e => hnot (e ▸ hg)
  have hout := link_outside_page pa g i hpa (hal g hg) hne hi
  rw [write64_outside _ pa s.freelist (g + i) (by unfold PGSIZE at hout; omega)]
  exact memset_outside _ pa 1 PGSIZE (g + i) hout


/-! ## Claims -/

/-- C1. When the free list is a non-empty chain of frames with no frame twice, kalloc
returns the frame at its head, the free list becomes the old one without that head
(so the returned frame is no longer in it), the returned frame's reference count is
exactly 1, and every other reference count is unchanged. -/
theorem kalloc_returns_head (L : MemLayout) (s : KState) (f : Nat) (l : List Nat)
    (hL : L.Valid) (hfl : FreeList s.mem s.freelist (f :: l)) (hnd : (f :: l).Nodup)
    (hfr : ∀ g, g ∈ f :: l → IsFrame L g) :
    ∃ s', kalloc L s = .ok f s' ∧ FreeList s'.mem s'.freelist l ∧ f ∉ l ∧
      (s'.count (f / PGSIZE)).val = 1 ∧
      ∀ i, i ≠ f / PGSIZE → s'.count i = s.count i := by
  have hhead : s.freelist = f := by
    have h := hfl
    unfold FreeList at h
    exact h.1
  have hf0 : f ≠ 0 := by
    have h := hfl
    unfold FreeList at h
    exact h.2.1
  have hfF := hfr f (List.mem_cons_self f l)
  have hidx := index_in_bounds L hL f hfF.2.2
  have hk := kalloc_nonempty L s (hhead ▸ hf0) (hhead ▸ hidx)
  rw [hhead] at hk
  refine ⟨_, hk, ?_, (List.nodup_cons.mp hnd).1, ?_, ?_⟩
  · exact FreeList.after_kalloc s f l hfl hfF.1
      (fun g hg => (hfr g (List.mem_cons_of_mem f hg)).1)
  · simp only [Function.update_same]
    exact CInt.ofInt_val_of_range 1 (by omega) (by omega)
  · intro i hi
    simp only [Function.update_noteq hi]

/-- Witness for C1 on the machine with free list 8192, 12288. -/
theorem kalloc_returns_head_witness :
    L0.Valid ∧ FreeList s0.mem s0.freelist [8192, 12288] ∧ [8192, 12288].Nodup ∧
    (∀ g, g ∈ [8192, 12288] → IsFrame L0 g) ∧
    ∃ s', kalloc L0 s0 = .ok 8192 s' ∧ FreeList s'.mem s'.freelist [12288] ∧
      8192 ∉ [12288] ∧ (s'.count (8192 / PGSIZE)).val = 1 ∧
      ∀ i, i ≠ 8192 / PGSIZE → s'.count i = s0.count i :=
  ⟨by decide, by decide, by decide, by decide,
    kalloc_returns_head L0 s0 8192 [12288] (by decide) (by decide) (by decide) (by decide)⟩

/-- C2. When the free list is empty, kalloc returns the null address 0 without any
fault and leaves the whole state (free list, reference counts, memory) as it was. -/
theorem kalloc_empty_returns_null (L : MemLayout) (s : KState)
    (hfl : FreeList s.mem s.freelist []) :
    kalloc L s = .ok 0 s ∧ (kalloc L s).fault? = none ∧ (kalloc L s).val? = some 0 := by
  have h0 : s.freelist = 0 := by
    unfold FreeList at hfl
    exact hfl
  rw [kalloc_null L s h0]
  exact ⟨rfl, rfl, rfl⟩

/-- Witness for C2 on the machine with nothing free. -/
theorem kalloc_empty_returns_null_witness :
    FreeList sEmpty.mem sEmpty.freelist [] ∧
    kalloc L0 sEmpty = .ok 0 sEmpty ∧ (kalloc L0 sEmpty).fault? = none ∧
      (kalloc L0 sEmpty).val? = some 0 :=
  ⟨by decide, kalloc_empty_returns_null L0 sEmpty (by decide)⟩

/-- C3. For a frame of the managed range whose reference count is at least 2, kfree
lowers that count by exactly 1 and does nothing else: the free-list head, all of
memory and every other count are unchanged, so the free list is the same chain. -/
theorem kfree_shared_only_decrements (L : MemLayout) (s : KState) (pa : Nat)
    (hL : L.Valid) (hpa : IsFrame L pa) (hc : 2 ≤ (s.count (pa / PGSIZE)).val) :
    ∃ s', kfree L pa s = .ok () s' ∧
      (s'.count (pa / PGSIZE)).val = (s.count (pa / PGSIZE)).val - 1 ∧
      (∀ i, i ≠ pa / PGSIZE → s'.count i = s.count i) ∧
      s'.freelist = s.freelist ∧ s'.mem = s.mem ∧
      ∀ l, FreeList s'.mem s'.freelist l ↔ FreeList s.mem s.freelist l := by
  have hk := kfree_decrement L pa s hL hpa (by omega)
  refine ⟨_, hk, ?_, ?_, rfl, rfl, fun l => Iff.rfl⟩
  · simp only [Function.update_same]
    have hr := (s.count (pa / PGSIZE)).range
    exact CInt.ofInt_val_of_range _ (by omega) (by omega)
  · intro i hi
    simp only [Function.update_noteq hi]

/-- Witness for C3: frame 8192 shared by three owners. -/
theorem kfree_shared_only_decrements_witness :
    L0.Valid ∧ IsFrame L0 8192 ∧ 2 ≤ (sShared.count (8192 / PGSIZE)).val ∧
    ∃ s', kfree L0 8192 sShared = .ok () s' ∧
      (s'.count (8192 / PGSIZE)).val = (sShared.count (8192 / PGSIZE)).val - 1 ∧
      (∀ i, i ≠ 8192 / PGSIZE → s'.count i = sShared.count i) ∧
      s'.freelist = sShared.freelist ∧ s'.mem = sShared.mem ∧
      ∀ l, FreeList s'.mem s'.freelist l ↔ FreeList sShared.mem sShared.freelist l :=
  ⟨by decide, by decide, by decide,
    kfree_shared_only_decrements L0 sShared 8192 (by decide) (by decide) (by decide)⟩


/-- C4 as stated fails when the frame is already in the free list: on the machine
whose free list is just frame 8192 (count 0), kfree(8192) stores the old head, 8192
itself, in the frame's link, so the chain from the new head is a cycle and not the
list 8192, 8192; a walk of 100 links does not reach the null link. -/
theorem kfree_push_counterexample :
    L0.Valid ∧ IsFrame L0 8192 ∧ (sFreed.count (8192 / PGSIZE)).val = 0 ∧
    FreeList sFreed.mem sFreed.freelist [8192] ∧
    (kfree L0 8192 sFreed).fault? = none ∧
    ¬ FreeList (kfree L0 8192 sFreed).state.mem (kfree L0 8192 sFreed).state.freelist
        (8192 :: [8192]) ∧
    (kfree L0 8192 sFreed).state.freelist = 8192 ∧
    read64 (kfree L0 8192 sFreed).state.mem 8192 = 8192 ∧
    (get_free_pages 100 (kfree L0 8192 sFreed).state).isSome = false := by
  refine ⟨by decide, by decide, by decide, by decide, by decide, by decide, by decide,
    by decide, ?_⟩
  decide

/-- C4, amended. For a frame pa of the managed range whose reference count is 1 or 0
and which is not already in the free list (a chain of frames), kfree sets the
frame's count to exactly 0 and pushes pa onto the head of the free list: the new
chain is pa followed by the old one.  Every other reference count is unchanged. -/
theorem kfree_last_owner_pushes (L : MemLayout) (s : KState) (pa : Nat) (l : List Nat)
    (hL : L.Valid) (hpa : IsFrame L pa)
    (hc : (s.count (pa / PGSIZE)).val = 1 ∨ (s.count (pa / PGSIZE)).val = 0)
    (hfl : FreeList s.mem s.freelist l) (hfr : ∀ g, g ∈ l → IsFrame L g)
    (hnot : pa ∉ l) :
    ∃ s', kfree L pa s = .ok () s' ∧ (s'.count (pa / PGSIZE)).val = 0 ∧
      s'.freelist = pa ∧ FreeList s'.mem s'.freelist (pa :: l) ∧
      ∀ i, i ≠ pa / PGSIZE → s'.count i = s.count i := by
  have hk := kfree_release L pa s hL hpa (by omega)
  have hpos : pa ≠ 0 := by
    have h1 := hL.2.2
    have h2 := hpa.2.1
    omega
  have hhead : s.freelist < 18446744073709551616 := by
    have hb := FreeList.head_lt s.mem s.freelist l L.PHYSTOP hfl
      (fun g hg => (hfr g hg).2.2) (by have := hpa.2.2; omega)
    have h2 := hL.2.1
    omega
  refine ⟨_, hk, ?_, rfl, ?_, ?_⟩
  · simp only [Function.update_same]
    exact CInt.ofInt_val_of_range 0 (by omega) (by omega)
  · exact FreeList.after_kfree s pa l hfl hpa.1 hpos (fun g hg => (hfr g hg).1) hnot hhead
  · intro i hi
    simp only [Function.update_noteq hi]

/-- Witness for C4: the single owner of frame 8192 frees it while 12288 is free. -/
theorem kfree_last_owner_pushes_witness :
    L0.Valid ∧ IsFrame L0 8192 ∧
    ((sOwned.count (8192 / PGSIZE)).val = 1 ∨ (sOwned.count (8192 / PGSIZE)).val = 0) ∧
    FreeList sOwned.mem sOwned.freelist [12288] ∧ (∀ g, g ∈ [12288] → IsFrame L0 g) ∧
    8192 ∉ [12288] ∧
    ∃ s', kfree L0 8192 sOwned = .ok () s' ∧ (s'.count (8192 / PGSIZE)).val = 0 ∧
      s'.freelist = 8192 ∧ FreeList s'.mem s'.freelist (8192 :: [12288]) ∧
      ∀ i, i ≠ 8192 / PGSIZE → s'.count i = sOwned.count i :=
  ⟨by decide, by decide, by decide, by decide, by decide, by decide,
    kfree_last_owner_pushes L0 sOwned 8192 [12288] (by decide) (by decide) (by decide)
      (by decide) (by decide) (by decide)⟩

/-- C5. kfree panics exactly when pa is not a multiple of 4096, or is below end, or
is at or above PHYSTOP, and the state at the panic is the state before the call.
In particular it panics one byte below the managed range, one frame size above its
upper bound, and at every address that is not frame-aligned. -/
theorem kfree_panics_iff (L : MemLayout) (s : KState) (pa : Nat) :
    ((∃ msg, (kfree L pa s).fault? = some (Fault.panic msg)) ↔
      (pa % PGSIZE ≠ 0 ∨ pa < L.kend ∨ L.PHYSTOP ≤ pa)) ∧
    ((pa % PGSIZE ≠ 0 ∨ pa < L.kend ∨ L.PHYSTOP ≤ pa) →
      kfree L pa s = .fault (.panic "kfree") s) ∧
    (0 < L.kend → kfree L (L.kend - 1) s = .fault (.panic "kfree") s) ∧
    kfree L (L.PHYSTOP + PGSIZE) s = .fault (.panic "kfree") s ∧
    (pa % PGSIZE ≠ 0 → kfree L pa s = .fault (.panic "kfree") s) := by
  refine ⟨?_, fun h => kfree_fatal L pa s h, fun h => kfree_fatal L _ s ?_,
    kfree_fatal L _ s ?_, fun h => kfree_fatal L pa s (Or.inl h)⟩
  · constructor
    · rintro ⟨msg, hm⟩
      by_contra hn
      unfold kfree at hm
      rw [if_neg hn] at hm
      split at hm
      · split at hm <;> simp [Outcome.fault?] at hm
      · simp [Outcome.fault?] at hm
    · intro h
      exact ⟨"kfree", by rw [kfree_fatal L pa s h]; rfl⟩
  · right; left; omega
  · right; right
    show L.PHYSTOP + PGSIZE ≥ L.PHYSTOP
    omega

/-- Witness for C5: the three boundary addresses of the small machine, and an
address on which kfree does not panic. -/
theorem kfree_panics_iff_witness :
    kfree L0 7999 s0 = .fault (.panic "kfree") s0 ∧
    kfree L0 24576 s0 = .fault (.panic "kfree") s0 ∧
    kfree L0 8193 s0 = .fault (.panic "kfree") s0 ∧
    ¬ (∃ msg, (kfree L0 16384 s0).fault? = some (Fault.panic msg)) :=
  ⟨(kfree_panics_iff L0 s0 0).2.2.1 (by decide),
    (kfree_panics_iff L0 s0 0).2.2.2.1,
    (kfree_panics_iff L0 s0 8193).2.2.2.2 (by decide),
    fun h => absurd ((kfree_panics_iff L0 s0 16384).1.mp h) (by decide)⟩


/-- C6 as stated fails at the top of the `int` range: with the count of frame 8192 at
2147483647, incref(8192) returns normally but the stored count is -2147483648, not
one more than before. -/
theorem incref_increment_counterexample :
    L0.Valid ∧ (L0.kend ≤ 8192 ∧ 8192 < L0.PHYSTOP) ∧
    (sMax.count (8192 / PGSIZE)).val = 2147483647 ∧
    (incref L0 8192 sMax).fault? = none ∧
    ((incref L0 8192 sMax).state.count (8192 / PGSIZE)).val = -2147483648 ∧
    ((incref L0 8192 sMax).state.count (8192 / PGSIZE)).val
      ≠ (sMax.count (8192 / PGSIZE)).val + 1 := by
  refine ⟨by decide, by decide, by decide, by decide, by decide, by decide⟩

/-- C6, amended. For every address pa inside the managed range whose frame's
reference count is below INT_MAX = 2147483647, incref raises the count of frame
pa / 4096 by exactly one and changes nothing else: every other count, the free-list
head and all of memory are unchanged. -/
theorem incref_increments_by_one (L : MemLayout) (s : KState) (pa : Nat)
    (hL : L.Valid) (h1 : L.kend ≤ pa) (h2 : pa < L.PHYSTOP)
    (hc : (s.count (pa / PGSIZE)).val < 2147483647) :
    ∃ s', incref L pa s = .ok () s' ∧
      (s'.count (pa / PGSIZE)).val = (s.count (pa / PGSIZE)).val + 1 ∧
      (∀ i, i ≠ pa / PGSIZE → s'.count i = s.count i) ∧
      s'.freelist = s.freelist ∧ s'.mem = s.mem := by
  refine ⟨_, incref_bump L pa s hL h1 h2, ?_, ?_, rfl, rfl⟩
  · simp only [Function.update_same]
    have hr := (s.count (pa / PGSIZE)).range
    exact CInt.ofInt_val_of_range _ (by omega) (by omega)
  · intro i hi
    simp only [Function.update_noteq hi]

/-- Witness for C6: an address in the middle of frame 8192, which has three owners. -/
theorem incref_increments_by_one_witness :
    L0.Valid ∧ L0.kend ≤ 9000 ∧ 9000 < L0.PHYSTOP ∧
    (sShared.count (9000 / PGSIZE)).val < 2147483647 ∧
    ∃ s', incref L0 9000 sShared = .ok () s' ∧
      (s'.count (9000 / PGSIZE)).val = (sShared.count (9000 / PGSIZE)).val + 1 ∧
      (∀ i, i ≠ 9000 / PGSIZE → s'.count i = sShared.count i) ∧
      s'.freelist = sShared.freelist ∧ s'.mem = sShared.mem :=
  ⟨by decide, by decide, by decide, by decide,
    incref_increments_by_one L0 sShared 9000 (by decide) (by decide) (by decide)
      (by decide)⟩

/-- C7. incref panics exactly when pa is below end or at or above PHYSTOP, and then
the state is the state before the call; for every other address, aligned or not, it
returns normally. -/
theorem incref_panics_iff (L : MemLayout) (s : KState) (pa : Nat) (hL : L.Valid) :
    ((∃ msg, (incref L pa s).fault? = some (Fault.panic msg)) ↔
      (pa < L.kend ∨ L.PHYSTOP ≤ pa)) ∧
    ((pa < L.kend ∨ L.PHYSTOP ≤ pa) →
      incref L pa s = .fault (.panic "incref: address out of bounds") s) ∧
    (¬ (pa < L.kend ∨ L.PHYSTOP ≤ pa) →
      ∃ s', incref L pa s = .ok () s' ∧ (incref L pa s).fault? = none) := by
  refine ⟨⟨?_, ?_⟩, fun h => incref_fatal L pa s h, ?_⟩
  · rintro ⟨msg, hm⟩
    by_contra hn
    rw [incref_bump L pa s hL (by omega) (by omega)] at hm
    simp [Outcome.fault?] at hm
  · intro h
    exact ⟨_, by rw [incref_fatal L pa s h]; rfl⟩
  · intro hn
    refine ⟨_, incref_bump L pa s hL (by omega) (by omega), ?_⟩
    rw [incref_bump L pa s hL (by omega) (by omega)]
    rfl

/-- Witness for C7: just below end, at PHYSTOP, and an unaligned address inside. -/
theorem incref_panics_iff_witness :
    L0.Valid ∧
    incref L0 7999 s0 = .fault (.panic "incref: address out of bounds") s0 ∧
    incref L0 20480 s0 = .fault (.panic "incref: address out of bounds") s0 ∧
    ∃ s', incref L0 8001 s0 = .ok () s' ∧ (incref L0 8001 s0).fault? = none :=
  ⟨by decide, (incref_panics_iff L0 s0 7999 (by decide)).2.1 (by decide),
    (incref_panics_iff L0 s0 20480 (by decide)).2.1 (by decide),
    (incref_panics_iff L0 s0 8001 (by decide)).2.2 (by decide)⟩


/-! ## Call sequences -/

theorem wrapInt32_add (x y : Int) : wrapInt32 (wrapInt32 x + y) = wrapInt32 (x + y) := by
  unfold wrapInt32; omega

theorem CInt.ofInt_self (c : CInt) : CInt.ofInt c.val = c := by
  apply Subtype.ext
  have hr := c.range
  exact CInt.ofInt_val_of_range c.val hr.1 hr.2

theorem CInt.ofInt_add (x y : Int) : CInt.ofInt ((CInt.ofInt x).val + y) = CInt.ofInt (x + y) := by
  apply Subtype.ext
  exact wrapInt32_add x y

/-- The first fault ends a sequence of calls; otherwise the last call runs in the
state the earlier ones produced. -/
theorem repeatCall_succ (op : KState → Outcome Unit) :
    ∀ (n : Nat) (s t : KState), repeatCall op n s = .ok () t →
      repeatCall op (n + 1) s = op t
  | 0, s, t, h => by
    unfold repeatCall at h
    injection h with _ hs
    subst hs
    unfold repeatCall
    cases op s with
    | ok v s' => cases v; rfl
    | fault f s' => rfl
  | n + 1, s, t, h => by
    rw [repeatCall] at h ⊢
    cases hop : op s with
    | ok v s' =>
      rw [hop] at h
      exact repeatCall_succ op n s' t h
    | fault f s' =>
      rw [hop] at h
      cases h

/-- After n calls of incref on an address of the managed range the count of its frame
is the old count plus n, reduced to an `int`; nothing else has changed. -/
theorem repeatCall_incref (L : MemLayout) (pa : Nat) (hL : L.Valid)
    (h1 : L.kend ≤ pa) (h2 : pa < L.PHYSTOP) :
    ∀ (n : Nat) (s : KState),
      repeatCall (incref L pa) n s = .ok () { s with
        count := Function.update s.count (pa / PGSIZE)
          (CInt.ofInt ((s.count (pa / PGSIZE)).val + (n : Int))) }
  | 0, s => by
    unfold repeatCall
    simp only [Nat.cast_zero, Int.add_zero, CInt.ofInt_self, Function.update_eq_self]
  | n + 1, s => by
    rw [repeatCall, incref_bump L pa s hL h1 h2]
    simp only
    rw [repeatCall_incref L pa hL h1 h2 n]
    simp only [Function.update_same, Function.update_idem, CInt.ofInt_add]
    have e : (s.count (pa / PGSIZE)).val + 1 + (n : Int)
        = (s.count (pa / PGSIZE)).val + ((n + 1 : Nat) : Int) := by
      push_cast; ring
    rw [e]

/-- While more than one owner remains, k calls of kfree only lower the count by k. -/
theorem repeatCall_kfree_shared (L : MemLayout) (pa : Nat) (hL : L.Valid)
    (hpa : IsFrame L pa) :
    ∀ (k : Nat) (s : KState), (k : Int) < (s.count (pa / PGSIZE)).val →
      repeatCall (kfree L pa) k s = .ok () { s with
        count := Function.update s.count (pa / PGSIZE)
          (CInt.ofInt ((s.count (pa / PGSIZE)).val - (k : Int))) }
  | 0, s, _ => by
    unfold repeatCall
    simp only [Nat.cast_zero, Int.sub_zero, CInt.ofInt_self, Function.update_eq_self]
  | k + 1, s, hk => by
    have hr := (s.count (pa / PGSIZE)).range
    have hgt : (s.count (pa / PGSIZE)).val > 1 := by push_cast at hk; omega
    rw [repeatCall, kfree_decrement L pa s hL hpa hgt]
    simp only
    have hv : (CInt.ofInt ((s.count (pa / PGSIZE)).val - 1)).val
        = (s.count (pa / PGSIZE)).val - 1 :=
      CInt.ofInt_val_of_range _ (by omega) (by omega)
    rw [repeatCall_kfree_shared L pa hL hpa k _ (by
      simp only [Function.update_same, hv]; push_cast at hk; omega)]
    simp only [Function.update_same, Function.update_idem, hv]
    have e : (s.count (pa / PGSIZE)).val - 1 - (k : Int)
        = (s.count (pa / PGSIZE)).val - ((k + 1 : Nat) : Int) := by
      push_cast; ring
    rw [e]


/-- Effect of kalloc on a state whose free list is the chain `f :: l` of frames. -/
theorem kalloc_chain (L : MemLayout) (s : KState) (f : Nat) (l : List Nat)
    (hL : L.Valid) (hfl : FreeList s.mem s.freelist (f :: l))
    (hfr : ∀ g, g ∈ f :: l → IsFrame L g) :
    ∃ s1, kalloc L s = .ok f s1 ∧ (s1.count (f / PGSIZE)).val = 1 ∧
      FreeList s1.mem s1.freelist l ∧ f ∉ l := by
  have hh := hfl
  unfold FreeList at hh
  have hfF := hfr f (List.mem_cons_self f l)
  have hidx := index_in_bounds L hL f hfF.2.2
  have hk := kalloc_nonempty L s (hh.1 ▸ hh.2.1) (hh.1 ▸ hidx)
  rw [hh.1] at hk
  refine ⟨_, hk, ?_, ?_, FreeList.head_not_mem s.mem f l s.freelist hfl⟩
  · simp only [Function.update_same]
    exact CInt.ofInt_val_of_range 1 (by omega) (by omega)
  · exact FreeList.after_kalloc s f l hfl hfF.1
      (fun g hg => (hfr g (List.mem_cons_of_mem f hg)).1)

/-- Effect of kfree by the last owner of a frame that is not in the free list `l`. -/
theorem kfree_chain_push (L : MemLayout) (s : KState) (pa : Nat) (l : List Nat)
    (hL : L.Valid) (hpa : IsFrame L pa) (hc : ¬ (s.count (pa / PGSIZE)).val > 1)
    (hfl : FreeList s.mem s.freelist l) (hfr : ∀ g, g ∈ l → IsFrame L g)
    (hnot : pa ∉ l) :
    ∃ s', kfree L pa s = .ok () s' ∧ (s'.count (pa / PGSIZE)).val = 0 ∧
      s'.freelist = pa ∧ FreeList s'.mem s'.freelist (pa :: l) := by
  have hk := kfree_release L pa s hL hpa hc
  have hpos : pa ≠ 0 := by
    have h1 := hL.2.2
    have h2 := hpa.2.1
    omega
  have hhead : s.freelist < 18446744073709551616 := by
    have hb := FreeList.head_lt s.mem s.freelist l L.PHYSTOP hfl
      (fun g hg => (hfr g hg).2.2) (by have := hpa.2.2; omega)
    have h2 := hL.2.1
    omega
  refine ⟨_, hk, ?_, rfl, ?_⟩
  · simp only [Function.update_same]
    exact CInt.ofInt_val_of_range 0 (by omega) (by omega)
  · exact FreeList.after_kfree s pa l hfl hpa.1 hpos (fun g hg => (hfr g hg).1) hnot hhead

/-- A frame with one owner and not in the free list `l`: n calls of incref bring its
count to n + 1; the next k ≤ n calls of kfree leave count n + 1 - k and touch neither
the free-list head nor memory; the call after the n-th pushes the frame. -/
theorem owner_session (L : MemLayout) (s : KState) (f : Nat) (l : List Nat) (n : Nat)
    (hL : L.Valid) (hf : IsFrame L f) (hc : (s.count (f / PGSIZE)).val = 1)
    (hfl : FreeList s.mem s.freelist l) (hfr : ∀ g, g ∈ l → IsFrame L g)
    (hnot : f ∉ l) (hn : n < 2147483647) :
    ∃ s2, repeatCall (incref L f) n s = .ok () s2 ∧
      (s2.count (f / PGSIZE)).val = (n : Int) + 1 ∧
      (∀ k, k ≤ n → ∃ t, repeatCall (kfree L f) k s2 = .ok () t ∧
        (t.count (f / PGSIZE)).val = (n : Int) + 1 - (k : Int) ∧
        t.freelist = s.freelist ∧ t.mem = s.mem) ∧
      ∃ tn t, repeatCall (kfree L f) n s2 = .ok () tn ∧ kfree L f tn = .ok () t ∧
        repeatCall (kfree L f) (n + 1) s2 = .ok () t ∧
        (t.count (f / PGSIZE)).val = 0 ∧ FreeList t.mem t.freelist (f :: l) := by
  have hinc := repeatCall_incref L f hL hf.2.1 hf.2.2 n s
  have hv : (CInt.ofInt ((s.count (f / PGSIZE)).val + (n : Int))).val = (n : Int) + 1 := by
    rw [hc, CInt.ofInt_val_of_range _ (by omega) (by omega)]
    omega
  have hdec : ∀ k, k ≤ n → ∃ t,
      repeatCall (kfree L f) k { s with
        count := Function.update s.count (f / PGSIZE)
          (CInt.ofInt ((s.count (f / PGSIZE)).val + (n : Int))) } = .ok () t ∧
      (t.count (f / PGSIZE)).val = (n : Int) + 1 - (k : Int) ∧
      t.freelist = s.freelist ∧ t.mem = s.mem := by
    intro k hk
    refine ⟨_, repeatCall_kfree_shared L f hL hf k _ ?_, ?_, rfl, rfl⟩
    · simp only [Function.update_same, hv]
      omega
    · simp only [Function.update_same, hv]
      exact CInt.ofInt_val_of_range _ (by omega) (by omega)
  refine ⟨_, hinc, ?_, hdec, ?_⟩
  · simp only [Function.update_same, hv]
  · obtain ⟨tn, htn, hcn, hfn, hmn⟩ := hdec n (Nat.le_refl n)
    have hfl' : FreeList tn.mem tn.freelist l := by rw [hfn, hmn]; exact hfl
    obtain ⟨t, ht, hc0, _, hflt⟩ :=
      kfree_chain_push L tn f l hL hf (by rw [hcn]; omega) hfl' hfr hnot
    exact ⟨tn, t, htn, ht, by rw [repeatCall_succ _ n _ tn htn]; exact ht, hc0, hflt⟩


/-- C8. Round trip with LIFO reuse: when the free list is a non-empty chain of
managed frames, kalloc returns its head f; kfree(f) right after restores the
free-list head and the chain to what they were before the kalloc, get_free_pages
(given fuel for the whole chain) returns the value it returned before the kalloc,
and the next kalloc returns f again with reference count 1. -/
theorem alloc_free_alloc_round_trip (L : MemLayout) (s : KState) (f : Nat) (l : List Nat)
    (hL : L.Valid) (hfl : FreeList s.mem s.freelist (f :: l))
    (hfr : ∀ g, g ∈ f :: l → IsFrame L g) :
    ∃ s1 s2 s3, kalloc L s = .ok f s1 ∧ kfree L f s1 = .ok () s2 ∧
      s2.freelist = s.freelist ∧ FreeList s2.mem s2.freelist (f :: l) ∧
      (∀ fuel, l.length + 1 ≤ fuel →
        ∃ v, get_free_pages fuel s = some (v, s) ∧ get_free_pages fuel s2 = some (v, s2)) ∧
      kalloc L s2 = .ok f s3 ∧ (s3.count (f / PGSIZE)).val = 1 := by
  obtain ⟨s1, h1, hc1, hfl1, hnot⟩ := kalloc_chain L s f l hL hfl hfr
  have hfF := hfr f (List.mem_cons_self f l)
  have hfr' : ∀ g, g ∈ l → IsFrame L g := fun g hg => hfr g (List.mem_cons_of_mem f hg)
  obtain ⟨s2, h2, _, hhd, hfl2⟩ :=
    kfree_chain_push L s1 f l hL hfF (by rw [hc1]; omega) hfl1 hfr' hnot
  obtain ⟨s3, h3, hc3, _, _⟩ := kalloc_chain L s2 f l hL hfl2 hfr
  have hhead : s.freelist = f := by
    have h := hfl
    unfold FreeList at h
    exact h.1
  refine ⟨s1, s2, s3, h1, h2, by rw [hhd, hhead], hfl2, ?_, h3, hc3⟩
  intro fuel hfuel
  exact ⟨_, get_free_pages_eq s (f :: l) fuel hfl (by simpa using hfuel),
    get_free_pages_eq s2 (f :: l) fuel hfl2 (by simpa using hfuel)⟩

/-- Witness for C8 on the machine with free list 8192, 12288. -/
theorem alloc_free_alloc_round_trip_witness :
    L0.Valid ∧ FreeList s0.mem s0.freelist [8192, 12288] ∧
    (∀ g, g ∈ [8192, 12288] → IsFrame L0 g) ∧
    ∃ s1 s2 s3, kalloc L0 s0 = .ok 8192 s1 ∧ kfree L0 8192 s1 = .ok () s2 ∧
      s2.freelist = s0.freelist ∧ FreeList s2.mem s2.freelist [8192, 12288] ∧
      (∀ fuel, [12288].length + 1 ≤ fuel →
        ∃ v, get_free_pages fuel s0 = some (v, s0) ∧
          get_free_pages fuel s2 = some (v, s2)) ∧
      kalloc L0 s2 = .ok 8192 s3 ∧ (s3.count (8192 / PGSIZE)).val = 1 :=
  ⟨by decide, by decide, by decide,
    alloc_free_alloc_round_trip L0 s0 8192 [12288] (by decide) (by decide) (by decide)⟩

/-- C9 as stated fails for n = 2147483647: frame 8192 has just been returned by
kalloc (count 1, not in the free list), and after n calls of incref its count is
-2147483648, not n + 1. -/
theorem incref_n_counterexample :
    (kalloc L0 s0).val? = some 8192 ∧ sAlloc = (kalloc L0 s0).state ∧
    (sAlloc.count (8192 / PGSIZE)).val = 1 ∧
    FreeList sAlloc.mem sAlloc.freelist [12288] ∧ 8192 ∉ [12288] ∧
    (repeatCall (incref L0 8192) 2147483647 sAlloc).fault? = none ∧
    ((repeatCall (incref L0 8192) 2147483647 sAlloc).state.count (8192 / PGSIZE)).val
      = -2147483648 ∧
    ((repeatCall (incref L0 8192) 2147483647 sAlloc).state.count (8192 / PGSIZE)).val
      ≠ ((2147483647 : Nat) : Int) + 1 := by
  have h := repeatCall_incref L0 8192 (by decide) (by decide) (by decide) 2147483647 sAlloc
  rw [h]
  refine ⟨by decide, rfl, by decide, by decide, by decide, by decide, by decide, by decide⟩

/-- C9, amended. For every n below INT_MAX = 2147483647 and every frame f just
returned by a successful kalloc: f has count 1 and is not in the free list; after n
calls of incref(f) its count is n + 1; each of the next n calls of kfree(f) leaves
count at least 1 and the free list as it was, without f; and the (n+1)-th kfree(f)
sets the count to 0 and pushes f onto the free list, where it occurs exactly once. -/
theorem incref_n_then_kfree (L : MemLayout) (s : KState) (f : Nat) (l : List Nat)
    (n : Nat) (hL : L.Valid) (hfl : FreeList s.mem s.freelist (f :: l))
    (hfr : ∀ g, g ∈ f :: l → IsFrame L g) (hn : n < 2147483647) :
    ∃ s1 s2, kalloc L s = .ok f s1 ∧ (s1.count (f / PGSIZE)).val = 1 ∧
      FreeList s1.mem s1.freelist l ∧ f ∉ l ∧
      repeatCall (incref L f) n s1 = .ok () s2 ∧
      (s2.count (f / PGSIZE)).val = (n : Int) + 1 ∧
      (∀ k, 1 ≤ k → k ≤ n → ∃ t, repeatCall (kfree L f) k s2 = .ok () t ∧
        1 ≤ (t.count (f / PGSIZE)).val ∧
        (t.count (f / PGSIZE)).val = (n : Int) + 1 - (k : Int) ∧
        FreeList t.mem t.freelist l) ∧
      ∃ tn t, repeatCall (kfree L f) n s2 = .ok () tn ∧ kfree L f tn = .ok () t ∧
        (t.count (f / PGSIZE)).val = 0 ∧ FreeList t.mem t.freelist (f :: l) ∧
        (f :: l).count f = 1 := by
  obtain ⟨s1, h1, hc1, hfl1, hnot⟩ := kalloc_chain L s f l hL hfl hfr
  have hfF := hfr f (List.mem_cons_self f l)
  have hfr' : ∀ g, g ∈ l → IsFrame L g := fun g hg => hfr g (List.mem_cons_of_mem f hg)
  obtain ⟨s2, h2, hc2, hdec, tn, t, htn, ht, _, hc0, hflt⟩ :=
    owner_session L s1 f l n hL hfF hc1 hfl1 hfr' hnot hn
  refine ⟨s1, s2, h1, hc1, hfl1, hnot, h2, hc2, ?_, tn, t, htn, ht, hc0, hflt, ?_⟩
  · intro k _ hk
    obtain ⟨t', ht', hct, hft, hmt⟩ := hdec k hk
    refine ⟨t', ht', by rw [hct]; omega, hct, ?_⟩
    rw [hft, hmt]
    exact hfl1
  · rw [List.count_cons_self, List.count_eq_zero_of_not_mem hnot]

/-- Witness for C9 with two extra owners. -/
theorem incref_n_then_kfree_witness :
    L0.Valid ∧ FreeList s0.mem s0.freelist [8192, 12288] ∧
    (∀ g, g ∈ [8192, 12288] → IsFrame L0 g) ∧ 2 < 2147483647 ∧
    ∃ s1 s2, kalloc L0 s0 = .ok 8192 s1 ∧ (s1.count (8192 / PGSIZE)).val = 1 ∧
      FreeList s1.mem s1.freelist [12288] ∧ 8192 ∉ [12288] ∧
      repeatCall (incref L0 8192) 2 s1 = .ok () s2 ∧
      (s2.count (8192 / PGSIZE)).val = ((2 : Nat) : Int) + 1 ∧
      (∀ k, 1 ≤ k → k ≤ 2 → ∃ t, repeatCall (kfree L0 8192) k s2 = .ok () t ∧
        1 ≤ (t.count (8192 / PGSIZE)).val ∧
        (t.count (8192 / PGSIZE)).val = ((2 : Nat) : Int) + 1 - (k : Int) ∧
        FreeList t.mem t.freelist [12288]) ∧
      ∃ tn t, repeatCall (kfree L0 8192) 2 s2 = .ok () tn ∧ kfree L0 8192 tn = .ok () t ∧
        (t.count (8192 / PGSIZE)).val = 0 ∧ FreeList t.mem t.freelist [8192, 12288] ∧
        [8192, 12288].count 8192 = 1 :=
  ⟨by decide, by decide, by decide, by decide,
    incref_n_then_kfree L0 s0 8192 [12288] 2 (by decide) (by decide) (by decide)
      (by decide)⟩


/-- C10 as stated fails.  With n = 1, after kalloc has returned frame 8192, one
incref and one kfree leave the frame allocated with count 1 and the free list still
12288 alone: the frame has come back zero times.  With n = 2147483647 the count
after the increfs is -2147483648, so the first kfree already pushes the frame and
the second pushes it again, which makes its link point to itself. -/
theorem incref_kfree_equal_counterexample :
    ((kalloc L0 s0).val? = some 8192 ∧ sAlloc = (kalloc L0 s0).state ∧
      (repeatCall (incref L0 8192) 1 sAlloc).fault? = none ∧
      (repeatCall (kfree L0 8192) 1 (repeatCall (incref L0 8192) 1 sAlloc).state).fault?
        = none ∧
      FreeList
        (repeatCall (kfree L0 8192) 1 (repeatCall (incref L0 8192) 1 sAlloc).state).state.mem
        (repeatCall (kfree L0 8192) 1
          (repeatCall (incref L0 8192) 1 sAlloc).state).state.freelist
        [12288] ∧
      8192 ∉ [12288] ∧
      ((repeatCall (kfree L0 8192) 1
          (repeatCall (incref L0 8192) 1 sAlloc).state).state.count (8192 / PGSIZE)).val
        = 1) ∧
    (FreeList
        (repeatCall (kfree L0 8192) 1
          (repeatCall (incref L0 8192) 2147483647 sAlloc).state).state.mem
        (repeatCall (kfree L0 8192) 1
          (repeatCall (incref L0 8192) 2147483647 sAlloc).state).state.freelist
        [8192, 12288] ∧
      (repeatCall (kfree L0 8192) 2
          (repeatCall (incref L0 8192) 2147483647 sAlloc).state).state.freelist = 8192 ∧
      read64
        (repeatCall (kfree L0 8192) 2
          (repeatCall (incref L0 8192) 2147483647 sAlloc).state).state.mem 8192
        = 8192) := by
  have h := repeatCall_incref L0 8192 (by decide) (by decide) (by decide) 2147483647 sAlloc
  rw [h]
  refine ⟨⟨by decide, rfl, by decide, by decide, by decide, by decide, by decide⟩,
    by decide, by decide, by decide⟩

/-- C10, amended. For every n below INT_MAX = 2147483647 and every frame f just
returned by kalloc, n calls of incref(f) followed by n + 1 calls of kfree(f), one
per owner, return f to the free list exactly once: the increfs and the first n
kfrees leave the free list as it was, without f, and the (n+1)-th kfree pushes f,
which then occurs in the free list once. -/
theorem incref_kfree_returns_once (L : MemLayout) (s : KState) (f : Nat) (l : List Nat)
    (n : Nat) (hL : L.Valid) (hfl : FreeList s.mem s.freelist (f :: l))
    (hfr : ∀ g, g ∈ f :: l → IsFrame L g) (hn : n < 2147483647) :
    ∃ s1 s2, kalloc L s = .ok f s1 ∧ repeatCall (incref L f) n s1 = .ok () s2 ∧
      FreeList s2.mem s2.freelist l ∧ f ∉ l ∧
      (∀ k, k ≤ n → ∃ t, repeatCall (kfree L f) k s2 = .ok () t ∧
        FreeList t.mem t.freelist l) ∧
      ∃ t, repeatCall (kfree L f) (n + 1) s2 = .ok () t ∧
        FreeList t.mem t.freelist (f :: l) ∧ (f :: l).count f = 1 := by
  obtain ⟨s1, h1, hc1, hfl1, hnot⟩ := kalloc_chain L s f l hL hfl hfr
  have hfF := hfr f (List.mem_cons_self f l)
  have hfr' : ∀ g, g ∈ l → IsFrame L g := fun g hg => hfr g (List.mem_cons_of_mem f hg)
  obtain ⟨s2, h2, _, hdec, _, t, _, _, ht, _, hflt⟩ :=
    owner_session L s1 f l n hL hfF hc1 hfl1 hfr' hnot hn
  have hkeep : ∀ k, k ≤ n → ∃ t, repeatCall (kfree L f) k s2 = .ok () t ∧
      FreeList t.mem t.freelist l := by
    intro k hk
    obtain ⟨t', ht', _, hft, hmt⟩ := hdec k hk
    refine ⟨t', ht', ?_⟩
    rw [hft, hmt]
    exact hfl1
  refine ⟨s1, s2, h1, h2, ?_, hnot, hkeep, t, ht, hflt, ?_⟩
  · obtain ⟨t0, ht0, hfl0⟩ := hkeep 0 (Nat.zero_le n)
    unfold repeatCall at ht0
    injection ht0 with _ hs
    rw [hs]
    exact hfl0
  · rw [List.count_cons_self, List.count_eq_zero_of_not_mem hnot]

/-- Witness for C10 with one extra owner: one incref, then two kfrees. -/
theorem incref_kfree_returns_once_witness :
    L0.Valid ∧ FreeList s0.mem s0.freelist [8192, 12288] ∧
    (∀ g, g ∈ [8192, 12288] → IsFrame L0 g) ∧ 1 < 2147483647 ∧
    ∃ s1 s2, kalloc L0 s0 = .ok 8192 s1 ∧ repeatCall (incref L0 8192) 1 s1 = .ok () s2 ∧
      FreeList s2.mem s2.freelist [12288] ∧ 8192 ∉ [12288] ∧
      (∀ k, k ≤ 1 → ∃ t, repeatCall (kfree L0 8192) k s2 = .ok () t ∧
        FreeList t.mem t.freelist [12288]) ∧
      ∃ t, repeatCall (kfree L0 8192) (1 + 1) s2 = .ok () t ∧
        FreeList t.mem t.freelist [8192, 12288] ∧ [8192, 12288].count 8192 = 1 :=
  ⟨by decide, by decide, by decide, by decide,
    incref_kfree_returns_once L0 s0 8192 [12288] 1 (by decide) (by decide) (by decide)
      (by decide)⟩


/-! ## Boot-time seeding: lemmas -/

theorem kfree_frame_ok (L : MemLayout) (pa : Nat) (s : KState) (hL : L.Valid)
    (hpa : IsFrame L pa) : ∃ s', kfree L pa s = .ok () s' := by
  by_cases hc : (s.count (pa / PGSIZE)).val > 1
  · exact ⟨_, kfree_decrement L pa s hL hpa hc⟩
  · exact ⟨_, kfree_release L pa s hL hpa hc⟩

theorem mem_pages (g : Nat) : ∀ (n p : Nat),
    g ∈ pages p n ↔ ∃ i, i < n ∧ g = p + i * PGSIZE
  | 0, p => by simp [pages]
  | n + 1, p => by
    rw [pages, List.mem_cons, mem_pages g n (p + PGSIZE)]
    constructor
    · rintro (h | ⟨i, hi, h⟩)
      · exact ⟨0, by omega, by omega⟩
      · exact ⟨i + 1, by omega, by rw [h]; ring⟩
    · rintro ⟨i, hi, h⟩
      cases i with
      | zero => left; omega
      | succ j => right; exact ⟨j, by omega, by rw [h]; ring⟩

theorem mem_pages_iff (g p n : Nat) (hp : p % PGSIZE = 0) :
    g ∈ pages p n ↔ g % PGSIZE = 0 ∧ p ≤ g ∧ g + PGSIZE ≤ p + n * PGSIZE := by
  rw [mem_pages]
  unfold PGSIZE at *
  constructor
  · rintro ⟨i, hi, h⟩
    refine ⟨by omega, by omega, by omega⟩
  · rintro ⟨h1, h2, h3⟩
    exact ⟨(g - p) / 4096, by omega, by omega⟩

theorem length_pages : ∀ (n p : Nat), (pages p n).length = n
  | 0, _ => rfl
  | n + 1, p => by rw [pages, List.length_cons, length_pages n]

theorem nodup_pages : ∀ (n p : Nat), (pages p n).Nodup
  | 0, _ => List.nodup_nil
  | n + 1, p => by
    rw [pages]
    refine List.nodup_cons.mpr ⟨?_, nodup_pages n _⟩
    rw [mem_pages]
    rintro ⟨i, _, h⟩
    unfold PGSIZE at h
    omega

theorem pages_succ_reverse (p n : Nat) :
    (pages p (n + 1)).reverse = (pages (p + PGSIZE) n).reverse ++ [p] := by
  rw [pages, List.reverse_cons]

/-- The loop of freerange calls kfree on the whole pages from `p` up to `pa_end`, one
after the other, whatever the state. -/
theorem freerange_loop_calls (L : MemLayout) (pa_end : Nat) (hL : L.Valid)
    (he : pa_end ≤ L.PHYSTOP) :
    ∀ (n fuel p : Nat) (s : KState), p % PGSIZE = 0 → L.kend ≤ p → p ≤ L.PHYSTOP →
      pa_end < p + (n + 1) * PGSIZE → (n ≠ 0 → p + n * PGSIZE ≤ pa_end) → n ≤ fuel →
      ∃ s', freerange_loop L pa_end fuel p s = some (.ok () s', pages p n)
  | 0, fuel, p, s, _, _, hp, h1, _, _ => by
    have h2 := hL.2.1
    have hc : ¬ (p + PGSIZE) % 18446744073709551616 ≤ pa_end := by
      rw [Nat.mod_eq_of_lt (by omega)]
      omega
    refine ⟨s, ?_⟩
    cases fuel with
    | zero => rw [freerange_loop, if_neg hc]; rfl
    | succ f => rw [freerange_loop, if_neg hc]; rfl
  | n + 1, 0, p, s, _, _, _, _, _, hf => by omega
  | n + 1, fuel + 1, p, s, hal, hk, hp, h1, h2, hf => by
    have hv := hL.2.1
    have h2' := h2 (by omega)
    have hle : p + PGSIZE ≤ pa_end := by unfold PGSIZE at *; omega
    have hmod : (p + PGSIZE) % 18446744073709551616 = p + PGSIZE :=
      Nat.mod_eq_of_lt (by omega)
    have hfr : IsFrame L p := ⟨hal, hk, by unfold PGSIZE at hle; omega⟩
    obtain ⟨s1, hs1⟩ := kfree_frame_ok L p s hL hfr
    obtain ⟨s', hs'⟩ := freerange_loop_calls L pa_end hL he n fuel (p + PGSIZE) s1
      (by unfold PGSIZE at *; omega) (by omega) (by omega)
      (by unfold PGSIZE at *; omega) (by intro _; unfold PGSIZE at *; omega) (by omega)
    refine ⟨s', ?_⟩
    rw [freerange_loop, if_pos (by rw [hmod]; exact hle), hs1]
    simp only [hmod, hs', Option.map_some', pages]

/-- From a state whose free list `l0` holds no page of the range from `p` to `pa_end`
and in which no page of this range has more than one owner, the loop of freerange
pushes the whole pages of the range one by one: the free list ends as these pages,
last first, followed by `l0`, with their counts 0 and every other count either
untouched or 0. -/
theorem freerange_loop_chain (L : MemLayout) (pa_end : Nat) (hL : L.Valid)
    (he : pa_end ≤ L.PHYSTOP) :
    ∀ (n fuel p : Nat) (s : KState) (l0 : List Nat),
      p % PGSIZE = 0 → L.kend ≤ p → p ≤ L.PHYSTOP →
      pa_end < p + (n + 1) * PGSIZE → (n ≠ 0 → p + n * PGSIZE ≤ pa_end) → n ≤ fuel →
      FreeList s.mem s.freelist l0 →
      (∀ g, g ∈ l0 → IsFrame L g ∧ (g < p ∨ pa_end < g + PGSIZE)) →
      (∀ g, p ≤ g → g + PGSIZE ≤ pa_end → ¬ (s.count (g / PGSIZE)).val > 1) →
      ∃ s', freerange_loop L pa_end fuel p s = some (.ok () s', pages p n) ∧
        FreeList s'.mem s'.freelist ((pages p n).reverse ++ l0) ∧
        (∀ g, g ∈ pages p n → (s'.count (g / PGSIZE)).val = 0) ∧
        (∀ i, (s'.count i).val = 0 ∨ s'.count i = s.count i)
  | 0, fuel, p, s, l0, _, _, hp, h1, _, _, hfl, _, _ => by
    have h2 := hL.2.1
    have hc : ¬ (p + PGSIZE) % 18446744073709551616 ≤ pa_end := by
      rw [Nat.mod_eq_of_lt (by omega)]
      omega
    refine ⟨s, ?_, by simpa [pages] using hfl, by simp [pages], fun i => Or.inr rfl⟩
    cases fuel with
    | zero => rw [freerange_loop, if_neg hc]; rfl
    | succ f => rw [freerange_loop, if_neg hc]; rfl
  | n + 1, 0, p, s, l0, _, _, _, _, _, hf, _, _, _ => by omega
  | n + 1, fuel + 1, p, s, l0, hal, hk, hp, h1, h2, hf, hfl, hl0, hcnt => by
    have hv := hL.2.1
    have h2' := h2 (by omega)
    have hle : p + PGSIZE ≤ pa_end := by unfold PGSIZE at *; omega
    have hmod : (p + PGSIZE) % 18446744073709551616 = p + PGSIZE :=
      Nat.mod_eq_of_lt (by omega)
    have hfr : IsFrame L p := ⟨hal, hk, by unfold PGSIZE at hle; omega⟩
    have hs1 := kfree_release L p s hL hfr (hcnt p (Nat.le_refl p) hle)
    have hpos : p ≠ 0 := by have := hL.2.2; omega
    have hnot : p ∉ l0 := fun hm => by have := (hl0 p hm).2; omega
    have hhead : s.freelist < 18446744073709551616 := by
      have hb := FreeList.head_lt s.mem s.freelist l0 L.PHYSTOP hfl
        (fun g hg => (hl0 g hg).1.2.2) (by have := hfr.2.2; omega)
      omega
    have hfl1 := FreeList.after_kfree s p l0 hfl hal hpos
      (fun g hg => (hl0 g hg).1.1) hnot hhead
    obtain ⟨s', hs', hfl', hz', hc'⟩ := freerange_loop_chain L pa_end hL he n fuel
      (p + PGSIZE)
      { count := Function.update s.count (p / PGSIZE) (CInt.ofInt 0)
        mem := write64 (memset s.mem p 1 PGSIZE) p s.freelist
        freelist := p } (p :: l0)
      (by unfold PGSIZE at *; omega) (by omega) (by omega)
      (by unfold PGSIZE at *; omega) (by intro _; unfold PGSIZE at *; omega) (by omega)
      hfl1
      (by
        intro g hg
        rcases List.mem_cons.mp hg with h | h
        · subst h; exact ⟨hfr, by unfold PGSIZE; omega⟩
        · exact ⟨(hl0 g h).1, by have := (hl0 g h).2; omega⟩)
      (by
        intro g hg hge
        have hne : g / PGSIZE ≠ p / PGSIZE := by unfold PGSIZE at *; omega
        show ¬ (Function.update s.count (p / PGSIZE) (CInt.ofInt 0) (g / PGSIZE)).val > 1
        rw [Function.update_noteq hne]
        exact hcnt g (by omega) hge)
    refine ⟨s', ?_, ?_, ?_, ?_⟩
    · rw [freerange_loop, if_pos (by rw [hmod]; exact hle), hs1]
      simp only [hmod, hs', Option.map_some', pages]
    · rw [pages_succ_reverse, List.append_assoc]
      exact hfl'
    · intro g hg
      rw [pages] at hg
      rcases List.mem_cons.mp hg with h | h
      · subst h
        rcases hc' (g / PGSIZE) with h0 | h0
        · exact h0
        · rw [h0]
          simp only [Function.update_same]
          exact CInt.ofInt_val_of_range 0 (by omega) (by omega)
      · exact hz' g h
    · intro i
      rcases hc' i with h0 | h0
      · exact Or.inl h0
      · by_cases hi : i = p / PGSIZE
        · left
          rw [h0, hi]
          simp only [Function.update_same]
          exact CInt.ofInt_val_of_range 0 (by omega) (by omega)
        · right
          rw [h0]
          simp only [Function.update_noteq hi]


theorem PGROUNDUP_spec (x : Nat) (hx : x + PGSIZE ≤ 18446744073709551616) :
    PGROUNDUP x % PGSIZE = 0 ∧ x ≤ PGROUNDUP x ∧ PGROUNDUP x < x + PGSIZE := by
  unfold PGROUNDUP
  unfold PGSIZE at *
  have h : (x + 4096 - 1) % 18446744073709551616 = x + 4096 - 1 :=
    Nat.mod_eq_of_lt (by omega)
  rw [h]
  omega

theorem index_inj (a b : Nat) (ha : a % PGSIZE = 0) (hb : b % PGSIZE = 0)
    (h : a / PGSIZE = b / PGSIZE) : a = b := by
  unfold PGSIZE at *
  omega

/-- Popping a whole free list of frames: as many kalloc calls as the list is long
return its entries in order, each ends with count 1, no other count changes, and the
free list is left empty. -/
theorem kallocN_chain (L : MemLayout) (hL : L.Valid) :
    ∀ (l : List Nat) (s : KState), FreeList s.mem s.freelist l →
      (∀ g, g ∈ l → IsFrame L g) →
      ∃ s', kallocN L l.length s = .ok l s' ∧ s'.freelist = 0 ∧
        (∀ g, g ∈ l → (s'.count (g / PGSIZE)).val = 1) ∧
        (∀ i, (∀ g, g ∈ l → i ≠ g / PGSIZE) → s'.count i = s.count i)
  | [], s, hfl, _ => by
    unfold FreeList at hfl
    exact ⟨s, rfl, hfl, by simp, fun i _ => rfl⟩
  | f :: l, s, hfl, hfr => by
    have hh := hfl
    unfold FreeList at hh
    have hfF := hfr f (List.mem_cons_self f l)
    have hidx := index_in_bounds L hL f hfF.2.2
    have hk := kalloc_nonempty L s (hh.1 ▸ hh.2.1) (hh.1 ▸ hidx)
    rw [hh.1] at hk
    have hnot := FreeList.head_not_mem s.mem f l s.freelist hfl
    have hfl1 := FreeList.after_kalloc s f l hfl hfF.1
      (fun g hg => (hfr g (List.mem_cons_of_mem f hg)).1)
    obtain ⟨s', hs', h0, h1, hoth⟩ := kallocN_chain L hL l
      { freelist := read64 s.mem f
        count := Function.update s.count (f / PGSIZE) (CInt.ofInt 1)
        mem := memset s.mem f 5 PGSIZE } hfl1
      (fun g hg => hfr g (List.mem_cons_of_mem f hg))
    refine ⟨s', ?_, h0, ?_, ?_⟩
    · rw [List.length_cons, kallocN, hk]
      simp only [hs']
    · intro g hg
      rcases List.mem_cons.mp hg with h | h
      · subst h
        rw [hoth (g / PGSIZE) (fun a ha heq => hnot (by
          rw [index_inj g a hfF.1 (hfr a (List.mem_cons_of_mem g ha)).1 heq]; exact ha))]
        simp only [Function.update_same]
        exact CInt.ofInt_val_of_range 1 (by omega) (by omega)
      · exact h1 g h
    · intro i hi
      rw [hoth i (fun g hg => hi g (List.mem_cons_of_mem f hg))]
      simp only [Function.update_noteq (hi f (List.mem_cons_self f l))]

/-- Seeding at boot: from an empty free list and a zeroed table, freerange on a range
inside the bounds kfree accepts returns, having called kfree on the `k` whole pages
of the range; they form the free list, last page first, and every count is 0. -/
theorem freerange_seeds (L : MemLayout) (s : KState) (pa_start pa_end k fuel : Nat)
    (hL : L.Valid) (hs : L.kend ≤ pa_start) (hse : pa_start ≤ pa_end)
    (he : pa_end ≤ L.PHYSTOP) (hk : (pa_end - PGROUNDUP pa_start) / PGSIZE = k)
    (hfuel : k ≤ fuel) (hfl : FreeList s.mem s.freelist [])
    (hz : ∀ i, (s.count i).val = 0) :
    ∃ s1, freerange L fuel pa_start pa_end s
        = some (.ok () s1, pages (PGROUNDUP pa_start) k) ∧
      FreeList s1.mem s1.freelist (pages (PGROUNDUP pa_start) k).reverse ∧
      ∀ i, (s1.count i).val = 0 := by
  have hv := hL.2.1
  have hal := hL.1
  obtain ⟨r1, r2, r3⟩ := PGROUNDUP_spec pa_start (by unfold PGSIZE at *; omega)
  obtain ⟨s1, h1, h2, _, h4⟩ := freerange_loop_chain L pa_end hL he k fuel
    (PGROUNDUP pa_start) s [] r1 (by omega) (by unfold PGSIZE at *; omega)
    (by unfold PGSIZE at *; omega) (by intro _; unfold PGSIZE at *; omega) hfuel hfl
    (by simp) (by intro g _ _; rw [hz]; omega)
  refine ⟨s1, h1, by simpa using h2, ?_⟩
  intro i
  rcases h4 i with h | h
  · exact h
  · rw [h]; exact hz i

/-- C11. For every k: from an empty free list and an all-zero reference-count table,
after freerange has seeded a range that holds exactly k whole frames, k consecutive
kalloc calls return k pairwise distinct frame-aligned addresses inside the seeded
range, each with reference count 1, and the next kalloc returns 0. -/
theorem seeded_range_allocates_k (L : MemLayout) (s : KState)
    (pa_start pa_end k fuel : Nat) (hL : L.Valid) (hs : L.kend ≤ pa_start)
    (hse : pa_start ≤ pa_end) (he : pa_end ≤ L.PHYSTOP)
    (hk : (pa_end - PGROUNDUP pa_start) / PGSIZE = k) (hfuel : k ≤ fuel)
    (hfl : FreeList s.mem s.freelist []) (hz : ∀ i, (s.count i).val = 0) :
    ∃ s1 rs s2, freerange L fuel pa_start pa_end s
        = some (.ok () s1, pages (PGROUNDUP pa_start) k) ∧
      kallocN L k s1 = .ok rs s2 ∧ rs.length = k ∧ rs.Nodup ∧
      (∀ a, a ∈ rs → a % PGSIZE = 0 ∧ pa_start ≤ a ∧ a + PGSIZE ≤ pa_end ∧
        IsFrame L a ∧ (s2.count (a / PGSIZE)).val = 1) ∧
      kalloc L s2 = .ok 0 s2 := by
  have hv := hL.2.1
  have hal := hL.1
  obtain ⟨r1, r2, r3⟩ := PGROUNDUP_spec pa_start (by unfold PGSIZE at *; omega)
  obtain ⟨s1, h1, h2, _⟩ := freerange_seeds L s pa_start pa_end k fuel hL hs hse he hk
    hfuel hfl hz
  have hmem : ∀ a, a ∈ (pages (PGROUNDUP pa_start) k).reverse →
      a % PGSIZE = 0 ∧ pa_start ≤ a ∧ a + PGSIZE ≤ pa_end := by
    intro a ha
    rw [List.mem_reverse, mem_pages_iff a _ k r1] at ha
    refine ⟨ha.1, by omega, ?_⟩
    unfold PGSIZE at *
    omega
  have hfr : ∀ a, a ∈ (pages (PGROUNDUP pa_start) k).reverse → IsFrame L a := by
    intro a ha
    obtain ⟨m1, m2, m3⟩ := hmem a ha
    exact ⟨m1, by omega, by unfold PGSIZE at *; omega⟩
  obtain ⟨s2, h3, h4, h5, _⟩ := kallocN_chain L hL _ s1 h2 hfr
  rw [List.length_reverse, length_pages] at h3
  refine ⟨s1, _, s2, h1, h3, by rw [List.length_reverse, length_pages],
    List.nodup_reverse.mpr (nodup_pages k _), ?_, kalloc_null L s2 h4⟩
  intro a ha
  obtain ⟨m1, m2, m3⟩ := hmem a ha
  exact ⟨m1, m2, m3, hfr a ha, h5 a ha⟩

/-- Witness for C11: the three frames of the small machine. -/
theorem seeded_range_allocates_k_witness :
    L0.Valid ∧ L0.kend ≤ 8000 ∧ 8000 ≤ 20480 ∧ 20480 ≤ L0.PHYSTOP ∧
    (20480 - PGROUNDUP 8000) / PGSIZE = 3 ∧ 3 ≤ 3 ∧
    FreeList sEmpty.mem sEmpty.freelist [] ∧ (∀ i, (sEmpty.count i).val = 0) ∧
    ∃ s1 rs s2, freerange L0 3 8000 20480 sEmpty
        = some (.ok () s1, pages (PGROUNDUP 8000) 3) ∧
      kallocN L0 3 s1 = .ok rs s2 ∧ rs.length = 3 ∧ rs.Nodup ∧
      (∀ a, a ∈ rs → a % PGSIZE = 0 ∧ 8000 ≤ a ∧ a + PGSIZE ≤ 20480 ∧
        IsFrame L0 a ∧ (s2.count (a / PGSIZE)).val = 1) ∧
      kalloc L0 s2 = .ok 0 s2 :=
  ⟨by decide, by decide, by decide, by decide, by decide, by decide, by decide,
    fun _ => rfl,
    seeded_range_allocates_k L0 sEmpty 8000 20480 3 3 (by decide) (by decide) (by decide)
      (by decide) (by decide) (by decide) (by decide) (fun _ => rfl)⟩


/-- C12 as stated fails when the end address is not frame-aligned: freerange(8000,
20000) calls kfree on 8192 and 12288 only, although 16384 is a frame-aligned address
with roundup(8000) ≤ 16384 < 20000; the frame that reaches beyond the end address is
left out. -/
theorem freerange_unaligned_end_counterexample :
    L0.Valid ∧ L0.kend ≤ 8000 ∧ 20000 ≤ L0.PHYSTOP ∧
    (freerange L0 10 8000 20000 sEmpty).map (fun r => (r.1.fault?, r.2))
      = some (none, [8192, 12288]) ∧
    16384 % PGSIZE = 0 ∧ PGROUNDUP 8000 ≤ 16384 ∧ 16384 < 20000 ∧
    16384 ∉ [8192, 12288] := by
  refine ⟨by decide, by decide, by decide, by decide, by decide, by decide, by decide,
    by decide⟩

/-- C12, amended. For a start and an end address within the bounds kfree accepts,
freerange rounds pa_start up to the next multiple of 4096 and returns after calling
kfree exactly once on every frame-aligned address p with roundup(pa_start) ≤ p and
p + 4096 ≤ pa_end (every aligned frame that lies wholly below the end address), and
on no other address.  When none of these frames is in the free list (a chain of
frames) and none has more than one owner, each of them enters the free list exactly
once: the new free list is these frames, last first, followed by the old one. -/
theorem freerange_frees_whole_frames (L : MemLayout) (s : KState)
    (pa_start pa_end fuel : Nat) (hL : L.Valid) (hs : L.kend ≤ pa_start)
    (hse : pa_start ≤ pa_end) (he : pa_end ≤ L.PHYSTOP)
    (hfuel : (pa_end - PGROUNDUP pa_start) / PGSIZE ≤ fuel) :
    (PGROUNDUP pa_start % PGSIZE = 0 ∧ pa_start ≤ PGROUNDUP pa_start ∧
      PGROUNDUP pa_start < pa_start + PGSIZE) ∧
    ∃ s' calls, freerange L fuel pa_start pa_end s = some (.ok () s', calls) ∧
      calls.Nodup ∧
      (∀ p, p ∈ calls ↔
        p % PGSIZE = 0 ∧ PGROUNDUP pa_start ≤ p ∧ p + PGSIZE ≤ pa_end) ∧
      ∀ l0, FreeList s.mem s.freelist l0 → (∀ g, g ∈ l0 → IsFrame L g ∧ g ∉ calls) →
        (∀ p, p ∈ calls → (s.count (p / PGSIZE)).val ≤ 1) →
        FreeList s'.mem s'.freelist (calls.reverse ++ l0) ∧
        (calls.reverse ++ l0).Nodup ∧
        ∀ p, p ∈ calls → (calls.reverse ++ l0).count p = 1 := by
  have hv := hL.2.1
  have hal := hL.1
  have hr := PGROUNDUP_spec pa_start (by unfold PGSIZE at *; omega)
  obtain ⟨r1, r2, r3⟩ := hr
  refine ⟨⟨r1, r2, r3⟩, ?_⟩
  have hmem : ∀ p, p ∈ pages (PGROUNDUP pa_start) ((pa_end - PGROUNDUP pa_start) / PGSIZE)
      ↔ p % PGSIZE = 0 ∧ PGROUNDUP pa_start ≤ p ∧ p + PGSIZE ≤ pa_end := by
    intro p
    rw [mem_pages_iff p _ _ r1]
    unfold PGSIZE at *
    constructor
    · rintro ⟨a, b, c⟩
      exact ⟨a, b, by omega⟩
    · rintro ⟨a, b, c⟩
      exact ⟨a, b, by omega⟩
  obtain ⟨s', hs'⟩ := freerange_loop_calls L pa_end hL he
    ((pa_end - PGROUNDUP pa_start) / PGSIZE) fuel (PGROUNDUP pa_start) s r1 (by omega)
    (by unfold PGSIZE at *; omega) (by unfold PGSIZE at *; omega)
    (by intro _; unfold PGSIZE at *; omega) hfuel
  refine ⟨s', _, hs', nodup_pages _ _, hmem, ?_⟩
  intro l0 hfl hl0 hcnt
  obtain ⟨s'', hs'', hch, _, _⟩ := freerange_loop_chain L pa_end hL he
    ((pa_end - PGROUNDUP pa_start) / PGSIZE) fuel (PGROUNDUP pa_start) s l0 r1 (by omega)
    (by unfold PGSIZE at *; omega) (by unfold PGSIZE at *; omega)
    (by intro _; unfold PGSIZE at *; omega) hfuel hfl
    (by
      intro g hg
      refine ⟨(hl0 g hg).1, ?_⟩
      have hn := (hl0 g hg).2
      rw [hmem] at hn
      have ha := (hl0 g hg).1.1
      by_contra hc
      exact hn ⟨ha, by omega, by omega⟩)
    (by
      intro g hg hge
      have hq := hcnt (g / PGSIZE * PGSIZE)
        ((hmem _).mpr (by unfold PGSIZE at *; omega))
      have he : g / PGSIZE * PGSIZE / PGSIZE = g / PGSIZE := by
        unfold PGSIZE; omega
      rw [he] at hq
      omega)
  have hst : s'' = s' := by
    rw [hs''] at hs'
    injection hs' with h
    injection h with h1 _
    injection h1
  subst hst
  have hnd := FreeList.nodup s''.mem _ s''.freelist hch
  refine ⟨hch, hnd, ?_⟩
  intro p hp
  exact List.count_eq_one_of_mem hnd (List.mem_append_left _ (List.mem_reverse.mpr hp))

/-- Witness for C12: seeding the small machine up to an unaligned end address. -/
theorem freerange_frees_whole_frames_witness :
    L0.Valid ∧ L0.kend ≤ 8000 ∧ 8000 ≤ 20000 ∧ 20000 ≤ L0.PHYSTOP ∧
    (20000 - PGROUNDUP 8000) / PGSIZE ≤ 5 ∧
    ((PGROUNDUP 8000 % PGSIZE = 0 ∧ 8000 ≤ PGROUNDUP 8000 ∧
      PGROUNDUP 8000 < 8000 + PGSIZE) ∧
    ∃ s' calls, freerange L0 5 8000 20000 sEmpty = some (.ok () s', calls) ∧
      calls.Nodup ∧
      (∀ p, p ∈ calls ↔ p % PGSIZE = 0 ∧ PGROUNDUP 8000 ≤ p ∧ p + PGSIZE ≤ 20000) ∧
      ∀ l0, FreeList sEmpty.mem sEmpty.freelist l0 →
        (∀ g, g ∈ l0 → IsFrame L0 g ∧ g ∉ calls) →
        (∀ p, p ∈ calls → (sEmpty.count (p / PGSIZE)).val ≤ 1) →
        FreeList s'.mem s'.freelist (calls.reverse ++ l0) ∧
        (calls.reverse ++ l0).Nodup ∧
        ∀ p, p ∈ calls → (calls.reverse ++ l0).count p = 1) :=
  ⟨by decide, by decide, by decide, by decide, by decide,
    freerange_frees_whole_frames L0 sEmpty 8000 20000 5 (by decide) (by decide)
      (by decide) (by decide) (by decide)⟩


theorem read64_write64_mod (mem : Mem) (a v : Nat) :
    read64 (write64 mem a v) a = v % 18446744073709551616 := by
  unfold read64 write64 Byte.ofNat
  simp
  omega

/-- C13 as stated fails: kfree has no test for a frame that is already free.  On the
machine whose free list is 8192, 12288 (both with count 0), kfree(12288) does not
panic; it returns with 12288 as the head of the free list and its link pointing to
the old head 8192, whose link still points to 12288. -/
theorem kfree_double_free_counterexample :
    L0.Valid ∧ IsFrame L0 12288 ∧ (s0.count (12288 / PGSIZE)).val = 0 ∧
    FreeList s0.mem s0.freelist [8192, 12288] ∧ 12288 ∈ [8192, 12288] ∧
    (kfree L0 12288 s0).fault? = none ∧
    (kfree L0 12288 s0).state.freelist = 12288 ∧
    read64 (kfree L0 12288 s0).state.mem 12288 = 8192 ∧
    read64 (kfree L0 12288 s0).state.mem 8192 = 12288 := by
  refine ⟨by decide, by decide, by decide, by decide, by decide, by decide, by decide,
    by decide, by decide⟩

/-- C13, amended. A double free is not detected: for every frame-aligned address pa in
the managed range that is already free (count 0 and in the free list), kfree(pa) does
not panic; it returns normally, leaves the count at 0, and makes pa the head of the
free list with its link set to the previous head. -/
theorem kfree_double_free_returns (L : MemLayout) (s : KState) (pa : Nat) (l : List Nat)
    (hL : L.Valid) (hpa : IsFrame L pa) (hc : (s.count (pa / PGSIZE)).val = 0)
    (hfl : FreeList s.mem s.freelist l) (hin : pa ∈ l) :
    ∃ s', kfree L pa s = .ok () s' ∧ (kfree L pa s).fault? = none ∧
      (s'.count (pa / PGSIZE)).val = 0 ∧ s'.freelist = pa ∧
      read64 s'.mem pa = s.freelist % 18446744073709551616 ∧
      s.freelist ≠ 0 := by
  have hk := kfree_release L pa s hL hpa (by omega)
  refine ⟨_, hk, by rw [hk]; rfl, ?_, rfl, read64_write64_mod _ pa s.freelist, ?_⟩
  · simp only [Function.update_same]
    exact CInt.ofInt_val_of_range 0 (by omega) (by omega)
  · cases l with
    | nil => cases hin
    | cons f l' =>
      unfold FreeList at hfl
      rw [hfl.1]
      exact hfl.2.1

/-- Witness for C13: the free frame 12288 of the small machine is freed again. -/
theorem kfree_double_free_returns_witness :
    L0.Valid ∧ IsFrame L0 12288 ∧ (s0.count (12288 / PGSIZE)).val = 0 ∧
    FreeList s0.mem s0.freelist [8192, 12288] ∧ 12288 ∈ [8192, 12288] ∧
    ∃ s', kfree L0 12288 s0 = .ok () s' ∧ (kfree L0 12288 s0).fault? = none ∧
      (s'.count (12288 / PGSIZE)).val = 0 ∧ s'.freelist = 12288 ∧
      read64 s'.mem 12288 = s0.freelist % 18446744073709551616 ∧
      s0.freelist ≠ 0 :=
  ⟨by decide, by decide, by decide, by decide, by decide,
    kfree_double_free_returns L0 s0 12288 [8192, 12288] (by decide) (by decide)
      (by decide) (by decide) (by decide)⟩


/-! ## Reference counts along call sequences -/

theorem kalloc_cases (L : MemLayout) (s s' : KState) (v : Nat)
    (h : kalloc L s = .ok v s') :
    (s.freelist = 0 ∧ v = 0 ∧ s' = s) ∨
    (s.freelist ≠ 0 ∧ v = s.freelist ∧ s.freelist / PGSIZE < L.PHYSTOP / PGSIZE ∧
      s' = { freelist := read64 s.mem s.freelist
             count := Function.update s.count (s.freelist / PGSIZE) (CInt.ofInt 1)
             mem := memset s.mem s.freelist 5 PGSIZE }) := by
  by_cases h0 : s.freelist = 0
  · rw [kalloc_null L s h0] at h
    injection h with hv hs
    exact Or.inl ⟨h0, hv.symm, hs.symm⟩
  · by_cases hidx : s.freelist / PGSIZE < L.PHYSTOP / PGSIZE
    · rw [kalloc_nonempty L s h0 hidx] at h
      injection h with hv hs
      exact Or.inr ⟨h0, hv.symm, hidx, hs.symm⟩
    · unfold kalloc at h
      simp only [ne_eq, h0, not_false_eq_true, if_true, hidx, if_false] at h
      cases h

theorem kfree_cases (L : MemLayout) (pa : Nat) (s s' : KState)
    (h : kfree L pa s = .ok () s') :
    ¬ (pa % PGSIZE ≠ 0 ∨ pa < L.kend ∨ pa ≥ L.PHYSTOP) ∧
    (((s.count (pa / PGSIZE)).val > 1 ∧ s' = { s with
        count := Function.update s.count (pa / PGSIZE)
          (CInt.ofInt ((s.count (pa / PGSIZE)).val - 1)) }) ∨
     (¬ (s.count (pa / PGSIZE)).val > 1 ∧ s' = {
        count := Function.update s.count (pa / PGSIZE) (CInt.ofInt 0)
        mem := write64 (memset s.mem pa 1 PGSIZE) pa s.freelist
        freelist := pa })) := by
  by_cases hg : pa % PGSIZE ≠ 0 ∨ pa < L.kend ∨ pa ≥ L.PHYSTOP
  · rw [kfree_fatal L pa s hg] at h
    cases h
  · refine ⟨hg, ?_⟩
    unfold kfree at h
    rw [if_neg hg] at h
    by_cases hidx : pa / PGSIZE < L.PHYSTOP / PGSIZE
    · rw [if_pos hidx] at h
      by_cases hc : (s.count (pa / PGSIZE)).val > 1
      · rw [if_pos hc] at h
        injection h with _ hs
        exact Or.inl ⟨hc, hs.symm⟩
      · rw [if_neg hc] at h
        injection h with _ hs
        exact Or.inr ⟨hc, hs.symm⟩
    · rw [if_neg hidx] at h
      cases h

theorem incref_cases (L : MemLayout) (pa : Nat) (s s' : KState)
    (h : incref L pa s = .ok () s') :
    ¬ (pa < L.kend ∨ pa ≥ L.PHYSTOP) ∧
    s' = { s with
      count := Function.update s.count (pa / PGSIZE)
        (CInt.ofInt ((s.count (pa / PGSIZE)).val + 1)) } := by
  by_cases hg : pa < L.kend ∨ pa ≥ L.PHYSTOP
  · rw [incref_fatal L pa s hg] at h
    cases h
  · refine ⟨hg, ?_⟩
    unfold incref at h
    rw [if_neg hg] at h
    by_cases hidx : pa / PGSIZE < L.PHYSTOP / PGSIZE
    · rw [if_pos hidx] at h
      injection h with _ hs
      exact hs.symm
    · rw [if_neg hidx] at h
      cases h

theorem callOp_kalloc (L : MemLayout) (s s' : KState)
    (h : callOp L Op.kalloc s = .ok () s') : ∃ v, kalloc L s = .ok v s' := by
  have h' : (match kalloc L s with
      | .ok _ s1 => Outcome.ok () s1
      | .fault f s1 => Outcome.fault f s1) = .ok () s' := h
  cases hk : kalloc L s with
  | ok v s1 =>
    rw [hk] at h'
    injection h' with _ hs
    exact ⟨v, by rw [hs]⟩
  | fault f s1 =>
    rw [hk] at h'
    cases h'

/-- What one returning call can do to an entry of the reference-count table. -/
theorem callOp_count_cases (L : MemLayout) (op : Op) (s s' : KState)
    (h : callOp L op s = .ok () s') (i : Nat) :
    s'.count i = s.count i ∨ (s'.count i).val = 1 ∨ (s'.count i).val = 0 ∨
    ((s.count i).val > 1 ∧ (s'.count i).val = (s.count i).val - 1) ∨
    (∃ pa, op = .incref pa ∧ i = pa / PGSIZE ∧
      s'.count i = CInt.ofInt ((s.count i).val + 1)) := by
  cases op with
  | kalloc =>
    obtain ⟨v, hk⟩ := callOp_kalloc L s s' h
    rcases kalloc_cases L s s' v hk with ⟨_, _, hs⟩ | ⟨_, _, _, hs⟩
    · left; rw [hs]
    · subst hs
      by_cases hi : i = s.freelist / PGSIZE
      · right; left
        subst hi
        simp only [Function.update_same]
        exact CInt.ofInt_val_of_range 1 (by omega) (by omega)
      · left
        simp only [Function.update_noteq hi]
  | kfree pa =>
    rcases (kfree_cases L pa s s' h).2 with ⟨hc, hs⟩ | ⟨_, hs⟩
    · subst hs
      by_cases hi : i = pa / PGSIZE
      · right; right; right; left
        subst hi
        simp only [Function.update_same]
        have hr := (s.count (pa / PGSIZE)).range
        exact ⟨hc, CInt.ofInt_val_of_range _ (by omega) (by omega)⟩
      · left
        simp only [Function.update_noteq hi]
    · subst hs
      by_cases hi : i = pa / PGSIZE
      · right; right; left
        subst hi
        simp only [Function.update_same]
        exact CInt.ofInt_val_of_range 0 (by omega) (by omega)
      · left
        simp only [Function.update_noteq hi]
  | incref pa =>
    have hs := (incref_cases L pa s s' h).2
    subst hs
    by_cases hi : i = pa / PGSIZE
    · right; right; right; right
      refine ⟨pa, rfl, hi, ?_⟩
      subst hi
      simp only [Function.update_same]
    · left
      simp only [Function.update_noteq hi]

/-- A returning call that does not overflow a count keeps all counts non-negative. -/
theorem callOp_nonneg (L : MemLayout) (op : Op) (s s' : KState)
    (h : callOp L op s = .ok () s') (hg : noOverflow s op = true)
    (hz : ∀ i, 0 ≤ (s.count i).val) : ∀ i, 0 ≤ (s'.count i).val := by
  intro i
  have hi := hz i
  rcases callOp_count_cases L op s s' h i with h1 | h1 | h1 | h1 | ⟨pa, hop, hidx, h1⟩
  · rw [h1]; exact hi
  · omega
  · omega
  · omega
  · subst hop
    subst hidx
    simp only [noOverflow, decide_eq_true_eq] at hg
    rw [h1, CInt.ofInt_val_of_range _ (by omega) (by omega)]
    omega

theorem runOps_nonneg (L : MemLayout) :
    ∀ (ops : List Op) (s s' : KState), runOps L noOverflow ops s = some s' →
      (∀ i, 0 ≤ (s.count i).val) → ∀ i, 0 ≤ (s'.count i).val
  | [], s, s', h, hz => by
    unfold runOps at h
    injection h with hs
    subst hs
    exact hz
  | op :: ops, s, s', h, hz => by
    rw [runOps] at h
    by_cases hg : noOverflow s op = true
    · rw [if_pos hg] at h
      cases hc : callOp L op s with
      | ok v s1 =>
        rw [hc] at h
        exact runOps_nonneg L ops s1 s' h (callOp_nonneg L op s s1 hc hg hz)
      | fault f s1 =>
        rw [hc] at h
        cases h
    · rw [if_neg hg] at h
      cases h

/-- A run of n increfs of the same address, as a sequence of calls. -/
theorem runOps_replicate_incref (L : MemLayout) (pa : Nat) :
    ∀ (n : Nat) (s : KState),
      runOps L anyCall (List.replicate n (Op.incref pa)) s
        = match repeatCall (incref L pa) n s with
          | .ok _ s' => some s'
          | .fault _ _ => none
  | 0, s => rfl
  | n + 1, s => by
    rw [List.replicate_succ, runOps, repeatCall]
    simp only [anyCall, if_true, callOp]
    cases incref L pa s with
    | ok v s1 => exact runOps_replicate_incref L pa n s1
    | fault f s1 => rfl


/-- C14 as stated fails, because the table holds C ints: from the zeroed table,
2147483648 calls of incref(8192), none of which panics, leave the count of frame
8192 at -2147483648. -/
theorem counts_nonneg_counterexample :
    L0.Valid ∧ (∀ i, (sEmpty.count i).val = 0) ∧
    (runOps L0 anyCall (List.replicate 2147483648 (Op.incref 8192)) sEmpty).map
      (fun t => (t.count (8192 / PGSIZE)).val) = some (-2147483648) := by
  refine ⟨by decide, fun _ => rfl, ?_⟩
  rw [runOps_replicate_incref,
    repeatCall_incref L0 8192 (by decide) (by decide) (by decide) 2147483648 sEmpty]
  decide

/-- C14, amended. In every state reached from the zero-initialised reference-count
table by a sequence of kalloc, kfree and incref calls, of any length and on any
arguments, in which no call ends in a fault and no incref is applied to a count that
is already INT_MAX = 2147483647, every entry of the table is at least 0. -/
theorem counts_never_negative (L : MemLayout) (ops : List Op) (s s' : KState)
    (hz : ∀ i, (s.count i).val = 0) (hrun : runOps L noOverflow ops s = some s') :
    ∀ i, 0 ≤ (s'.count i).val :=
  runOps_nonneg L ops s s' hrun (fun i => by rw [hz i])

/-- Witness for C14: a frame is seeded, allocated, shared and released. -/
theorem counts_never_negative_witness :
    (∀ i, (sEmpty.count i).val = 0) ∧
    ∃ s', runOps L0 noOverflow
        [Op.kfree 8192, Op.kalloc, Op.incref 8192, Op.kfree 8192, Op.kfree 8192, Op.kalloc]
        sEmpty = some s' ∧
      ∀ i, 0 ≤ (s'.count i).val :=
  ⟨fun _ => rfl, _, rfl,
    counts_never_negative L0
      [Op.kfree 8192, Op.kalloc, Op.incref 8192, Op.kfree 8192, Op.kfree 8192, Op.kalloc]
      sEmpty _ (fun _ => rfl) rfl⟩


/-! ## The allocator invariant -/

theorem index_ne (a b : Nat) (ha : a % PGSIZE = 0) (hb : b % PGSIZE = 0) (h : a ≠ b) :
    a / PGSIZE ≠ b / PGSIZE := fun e => h (index_inj a b ha hb e)

/-- Every returning call that follows the protocol preserves the invariant. -/
theorem callOp_preserves_inv (L : MemLayout) (hL : L.Valid) (op : Op) (s s' : KState)
    (hinv : AllocatorInv L s) (hp : followsProtocol L s op = true)
    (h : callOp L op s = .ok () s') : AllocatorInv L s' := by
  obtain ⟨l, hfl, hnd, hfr, hiff⟩ := hinv
  cases op with
  | kalloc =>
    obtain ⟨v, hk⟩ := callOp_kalloc L s s' h
    rcases kalloc_cases L s s' v hk with ⟨_, _, hs⟩ | ⟨h0, _, _, hs⟩
    · subst hs
      exact ⟨l, hfl, hnd, hfr, hiff⟩
    · cases l with
      | nil => unfold FreeList at hfl; exact absurd hfl h0
      | cons f l' =>
        have hhead : s.freelist = f := by
          have hh := hfl
          unfold FreeList at hh
          exact hh.1
        rw [hhead] at hs
        subst hs
        have hfF := hfr f (List.mem_cons_self f l')
        have hnot := (List.nodup_cons.mp hnd).1
        refine ⟨l', FreeList.after_kalloc s f l' hfl hfF.1
          (fun g hg => (hfr g (List.mem_cons_of_mem f hg)).1), (List.nodup_cons.mp hnd).2,
          fun g hg => hfr g (List.mem_cons_of_mem f hg), ?_⟩
        intro g hg
        by_cases hgf : g = f
        · subst hgf
          simp only [Function.update_same]
          rw [CInt.ofInt_val_of_range 1 (by omega) (by omega)]
          constructor
          · intro hm; exact absurd hm hnot
          · intro h1; omega
        · simp only [Function.update_noteq (index_ne g f hg.1 hfF.1 hgf)]
          rw [← hiff g hg, List.mem_cons]
          constructor
          · intro hm; exact Or.inr hm
          · rintro (hm | hm)
            · exact absurd hm hgf
            · exact hm
  | kfree pa =>
    simp only [followsProtocol, decide_eq_true_eq] at hp
    obtain ⟨hpa, hc1⟩ := hp
    have hnot : pa ∉ l := fun hm => by
      have := (hiff pa hpa).mp hm
      omega
    rcases (kfree_cases L pa s s' h).2 with ⟨hc, hs⟩ | ⟨hc, hs⟩
    · subst hs
      refine ⟨l, hfl, hnd, hfr, ?_⟩
      intro g hg
      by_cases hgp : g = pa
      · subst hgp
        simp only [Function.update_same]
        have hr := (s.count (g / PGSIZE)).range
        rw [CInt.ofInt_val_of_range _ (by omega) (by omega)]
        constructor
        · intro hm; exact absurd hm hnot
        · intro h1; omega
      · simp only [Function.update_noteq (index_ne g pa hg.1 hpa.1 hgp)]
        exact hiff g hg
    · subst hs
      have hpos : pa ≠ 0 := by
        have h1 := hL.2.2
        have h2 := hpa.2.1
        omega
      have hhead : s.freelist < 18446744073709551616 := by
        have hb := FreeList.head_lt s.mem s.freelist l L.PHYSTOP hfl
          (fun g hg => (hfr g hg).2.2) (by have := hpa.2.2; omega)
        have h2 := hL.2.1
        omega
      refine ⟨pa :: l, FreeList.after_kfree s pa l hfl hpa.1 hpos
        (fun g hg => (hfr g hg).1) hnot hhead, List.nodup_cons.mpr ⟨hnot, hnd⟩, ?_, ?_⟩
      · intro g hg
        rcases List.mem_cons.mp hg with hm | hm
        · rw [hm]; exact hpa
        · exact hfr g hm
      · intro g hg
        by_cases hgp : g = pa
        · subst hgp
          simp only [Function.update_same, List.mem_cons, true_or, true_iff]
          exact CInt.ofInt_val_of_range 0 (by omega) (by omega)
        · simp only [Function.update_noteq (index_ne g pa hg.1 hpa.1 hgp)]
          rw [← hiff g hg, List.mem_cons]
          constructor
          · rintro (hm | hm)
            · exact absurd hm hgp
            · exact hm
          · intro hm; exact Or.inr hm
  | incref pa =>
    simp only [followsProtocol, decide_eq_true_eq] at hp
    obtain ⟨hpa, hc1⟩ := hp
    have hnot : pa ∉ l := fun hm => by
      have := (hiff pa hpa).mp hm
      omega
    have hs := (incref_cases L pa s s' h).2
    subst hs
    refine ⟨l, hfl, hnd, hfr, ?_⟩
    intro g hg
    by_cases hgp : g = pa
    · subst hgp
      simp only [Function.update_same]
      have hr := (s.count (g / PGSIZE)).range
      have hne : (CInt.ofInt ((s.count (g / PGSIZE)).val + 1)).val ≠ 0 := by
        rw [CInt.ofInt_val]
        unfold wrapInt32
        omega
      constructor
      · intro hm; exact absurd hm hnot
      · intro h1; exact absurd h1 hne
    · simp only [Function.update_noteq (index_ne g pa hg.1 hpa.1 hgp)]
      exact hiff g hg

theorem runOps_preserves_inv (L : MemLayout) (hL : L.Valid) :
    ∀ (ops : List Op) (s s' : KState), AllocatorInv L s →
      runOps L (followsProtocol L) ops s = some s' → AllocatorInv L s'
  | [], s, s', hinv, h => by
    unfold runOps at h
    injection h with hs
    subst hs
    exact hinv
  | op :: ops, s, s', hinv, h => by
    rw [runOps] at h
    by_cases hg : followsProtocol L s op = true
    · rw [if_pos hg] at h
      cases hc : callOp L op s with
      | ok v s1 =>
        rw [hc] at h
        exact runOps_preserves_inv L hL ops s1 s'
          (callOp_preserves_inv L hL op s s1 hinv hg hc) h
      | fault f s1 =>
        rw [hc] at h
        cases h
    · rw [if_neg hg] at h
      cases h


/-- Boot: on an empty free list and a zeroed table kinit returns, and the free list
then holds exactly the frames of the managed range, each once, all with count 0. -/
theorem kinit_seeds (L : MemLayout) (s : KState) (fuel : Nat) (hL : L.Valid)
    (hle : L.kend ≤ L.PHYSTOP) (hfl : FreeList s.mem s.freelist [])
    (hz : ∀ i, (s.count i).val = 0)
    (hfuel : (L.PHYSTOP - PGROUNDUP L.kend) / PGSIZE ≤ fuel) :
    ∃ s1 l, kinit L fuel s = some (.ok () s1) ∧ FreeList s1.mem s1.freelist l ∧
      l.Nodup ∧ l.length = (L.PHYSTOP - PGROUNDUP L.kend) / PGSIZE ∧
      (∀ g, g ∈ l ↔ IsFrame L g) ∧ ∀ i, (s1.count i).val = 0 := by
  have hv := hL.2.1
  have hal := hL.1
  obtain ⟨r1, r2, r3⟩ := PGROUNDUP_spec L.kend (by unfold PGSIZE at *; omega)
  obtain ⟨s1, h1, h2, h3⟩ := freerange_seeds L s L.kend L.PHYSTOP _ fuel hL
    (Nat.le_refl _) hle (Nat.le_refl _) rfl hfuel hfl hz
  refine ⟨s1, _, ?_, h2, List.nodup_reverse.mpr (nodup_pages _ _),
    by rw [List.length_reverse, length_pages], ?_, h3⟩
  · unfold kinit
    rw [h1]
    rfl
  · intro g
    rw [List.mem_reverse, mem_pages_iff g _ _ r1]
    unfold IsFrame
    unfold PGSIZE at *
    constructor
    · rintro ⟨a, b, c⟩
      exact ⟨a, by omega, by omega⟩
    · rintro ⟨a, b, c⟩
      exact ⟨a, by omega, by omega⟩

/-- C15. After kinit has run on an empty free list and a zeroed table (it returns),
every state reached by calls that follow the protocol (kalloc at any time; incref
and kfree only on frames of the managed range whose reference count is at least 1)
satisfies the allocator invariant: the free list holds no frame twice and only
frame-aligned frames of the managed range, and a managed frame is in the free list
if and only if its reference count is 0. -/
theorem allocator_invariant_reachable (L : MemLayout) (s : KState) (fuel : Nat)
    (hL : L.Valid) (hle : L.kend ≤ L.PHYSTOP) (hfl : FreeList s.mem s.freelist [])
    (hz : ∀ i, (s.count i).val = 0)
    (hfuel : (L.PHYSTOP - PGROUNDUP L.kend) / PGSIZE ≤ fuel) :
    ∃ s1, kinit L fuel s = some (.ok () s1) ∧
      ∀ ops s2, runOps L (followsProtocol L) ops s1 = some s2 →
        ∃ l, FreeList s2.mem s2.freelist l ∧ l.Nodup ∧ (∀ g, g ∈ l → IsFrame L g) ∧
          ∀ g, IsFrame L g → (g ∈ l ↔ (s2.count (g / PGSIZE)).val = 0) := by
  obtain ⟨s1, l, h1, h2, h3, _, h5, h6⟩ := kinit_seeds L s fuel hL hle hfl hz hfuel
  refine ⟨s1, h1, ?_⟩
  intro ops s2 hrun
  have hinit : AllocatorInv L s1 :=
    ⟨l, h2, h3, fun g hg => (h5 g).mp hg,
      fun g hg => ⟨fun _ => h6 _, fun _ => (h5 g).mpr hg⟩⟩
  exact runOps_preserves_inv L hL ops s1 s2 hinit hrun

/-- Witness for C15: the small machine is booted. -/
theorem allocator_invariant_reachable_witness :
    L0.Valid ∧ L0.kend ≤ L0.PHYSTOP ∧ FreeList sEmpty.mem sEmpty.freelist [] ∧
    (∀ i, (sEmpty.count i).val = 0) ∧ (L0.PHYSTOP - PGROUNDUP L0.kend) / PGSIZE ≤ 3 ∧
    ∃ s1, kinit L0 3 sEmpty = some (.ok () s1) ∧
      ∀ ops s2, runOps L0 (followsProtocol L0) ops s1 = some s2 →
        ∃ l, FreeList s2.mem s2.freelist l ∧ l.Nodup ∧ (∀ g, g ∈ l → IsFrame L0 g) ∧
          ∀ g, IsFrame L0 g → (g ∈ l ↔ (s2.count (g / PGSIZE)).val = 0) :=
  ⟨by decide, by decide, by decide, fun _ => rfl, by decide,
    allocator_invariant_reachable L0 sEmpty 3 (by decide) (by decide) (by decide)
      (fun _ => rfl) (by decide)⟩


/-! ## Counting the free list -/

/-- Booting the machine with 2147483648 frames: kinit returns, the free list then
holds 2147483648 frames, and get_free_pages, whose `uint64` counter is returned as an
`int`, yields -2147483648. -/
theorem big_machine_boot :
    ∃ l, kinit Lbig 2147483648 sEmpty = some (.ok () sBig) ∧
      FreeList sBig.mem sBig.freelist l ∧ l.length = 2147483648 ∧
      get_free_pages 2147483648 sBig = some (-2147483648, sBig) := by
  obtain ⟨s1, l, hk, hfl, _, hlen, _, _⟩ := kinit_seeds Lbig sEmpty 2147483648
    (by decide) (by decide) (by decide) (fun _ => rfl) (by decide)
  have hs : sBig = s1 :=
    congrArg (fun o : Option (Outcome Unit) => (o.map Outcome.state).getD sEmpty) hk
  have hlen' : l.length = 2147483648 := by
    rw [hlen]
    decide
  have hg := get_free_pages_eq s1 l 2147483648 hfl (by omega)
  have hw : wrapInt32 ((2147483648 % 18446744073709551616 : Nat) : Int) = -2147483648 := by
    decide
  rw [hlen', hw] at hg
  rewrite [hs]
  exact ⟨l, hk, hfl, hlen', hg⟩

/-- C16 as stated fails when the free list holds 2147483648 frames or more, because
get_free_pages returns its `uint64` counter as an `int`.  The machine with
end = 2^34 and PHYSTOP = 2^34 + 2^43 has room below end for the reference-count
table (4 bytes for each of its PHYSTOP / 4096 entries, above a load address of
0x80000000); after its boot the free list holds all 2147483648 managed frames, and
get_free_pages returns -2147483648. -/
theorem get_free_pages_counterexample :
    Lbig.Valid ∧ 2147483648 + 4 * (Lbig.PHYSTOP / PGSIZE) ≤ Lbig.kend ∧
    Lbig.kend ≤ Lbig.PHYSTOP ∧
    kinit Lbig 2147483648 sEmpty = some (.ok () sBig) ∧
    ∃ l, FreeList sBig.mem sBig.freelist l ∧ l.length = 2147483648 ∧
      (get_free_pages 2147483648 sBig).map Prod.fst = some (-2147483648) := by
  obtain ⟨l, hk, hfl, hlen, hg⟩ := big_machine_boot
  refine ⟨by decide, by decide, by decide, hk, l, hfl, hlen, ?_⟩
  rewrite [hg]
  rfl

/-- C16, amended. For every allocator state whose free list is a null-terminated
chain of fewer than 2147483648 frames, get_free_pages (given fuel for the chain)
returns the number of frames in the free list, and the state it returns in is the
state it was called in: free list and reference counts are unchanged. -/
theorem get_free_pages_returns_length (s : KState) (l : List Nat) (fuel : Nat)
    (hfl : FreeList s.mem s.freelist l) (hlen : l.length < 2147483648)
    (hfuel : l.length ≤ fuel) :
    get_free_pages fuel s = some ((l.length : Int), s) := by
  rw [get_free_pages_eq s l fuel hfl hfuel]
  have h1 : l.length % 18446744073709551616 = l.length := Nat.mod_eq_of_lt (by omega)
  rw [h1, wrapInt32_of_range _ (by omega) (by omega)]

/-- Witness for C16 on the machine with free list 8192, 12288. -/
theorem get_free_pages_returns_length_witness :
    FreeList s0.mem s0.freelist [8192, 12288] ∧ [8192, 12288].length < 2147483648 ∧
    [8192, 12288].length ≤ 2 ∧
    get_free_pages 2 s0 = some ((([8192, 12288] : List Nat).length : Int), s0) :=
  ⟨by decide, by decide, by decide,
    get_free_pages_returns_length s0 [8192, 12288] 2 (by decide) (by decide) (by decide)⟩


/-- C20 as stated fails for its last part when the managed range holds 2147483648
frames or more.  On the machine with end = 2^34 and PHYSTOP = 2^34 + 2^43, whose
kernel image has room below end for the reference-count table (4 bytes for each of
its PHYSTOP / 4096 entries, above a load address of 0x80000000), kinit returns with
all 2147483648 frames in the free list, and get_free_pages returns -2147483648, not
(PHYSTOP - roundup(end)) / 4096 = 2147483648. -/
theorem kinit_free_pages_counterexample :
    Lbig.Valid ∧ Lbig.PHYSTOP % 4096 = 0 ∧ Lbig.kend ≤ Lbig.PHYSTOP ∧
    2147483648 + 4 * (Lbig.PHYSTOP / 4096) ≤ Lbig.kend ∧
    (Lbig.PHYSTOP - PGROUNDUP Lbig.kend) / 4096 = 2147483648 ∧
    kinit Lbig 2147483648 sEmpty = some (.ok () sBig) ∧
    (get_free_pages 2147483648 sBig).map Prod.fst = some (-2147483648) := by
  obtain ⟨l, hk, _, _, hg⟩ := big_machine_boot
  refine ⟨by decide, by decide, by decide, by decide, by decide, hk, ?_⟩
  rewrite [hg]
  rfl

/-- C20, amended. When PHYSTOP is a multiple of 4096, end ≤ PHYSTOP, and the managed
range holds fewer than 2147483648 frames, kinit (run on an empty free list and a
zeroed table) returns without a fault, and afterwards the free list holds, each
exactly once and with reference count 0, precisely the addresses on which kfree does
not panic (the multiples of 4096 that are ≥ end and < PHYSTOP), so get_free_pages
returns (PHYSTOP - roundup(end)) / 4096. -/
theorem kinit_seeds_accepted_frames (L : MemLayout) (s : KState) (fuel : Nat)
    (hL : L.Valid) (hle : L.kend ≤ L.PHYSTOP) (hfl : FreeList s.mem s.freelist [])
    (hz : ∀ i, (s.count i).val = 0)
    (hfuel : (L.PHYSTOP - PGROUNDUP L.kend) / PGSIZE ≤ fuel)
    (hsmall : (L.PHYSTOP - PGROUNDUP L.kend) / PGSIZE < 2147483648) :
    ∃ s1 l, kinit L fuel s = some (.ok () s1) ∧ FreeList s1.mem s1.freelist l ∧
      (∀ g, g ∈ l ↔ g % PGSIZE = 0 ∧ L.kend ≤ g ∧ g < L.PHYSTOP) ∧
      (∀ g t, g ∈ l ↔ ¬ ∃ msg, (kfree L g t).fault? = some (Fault.panic msg)) ∧
      (∀ g, g ∈ l → l.count g = 1 ∧ (s1.count (g / PGSIZE)).val = 0) ∧
      get_free_pages fuel s1
        = some ((((L.PHYSTOP - PGROUNDUP L.kend) / PGSIZE : Nat) : Int), s1) := by
  obtain ⟨s1, l, h1, h2, h3, h4, h5, h6⟩ := kinit_seeds L s fuel hL hle hfl hz hfuel
  refine ⟨s1, l, h1, h2, h5, ?_, ?_, ?_⟩
  · intro g t
    rw [h5 g]
    constructor
    · rintro hg ⟨msg, hm⟩
      obtain ⟨t', ht'⟩ := kfree_frame_ok L g t hL hg
      rw [ht'] at hm
      cases hm
    · intro hn
      by_contra hg
      apply hn
      have hc : g % PGSIZE ≠ 0 ∨ g < L.kend ∨ g ≥ L.PHYSTOP := by
        unfold IsFrame at hg
        omega
      exact ⟨"kfree", by rw [kfree_fatal L g t hc]; rfl⟩
  · intro g hg
    exact ⟨List.count_eq_one_of_mem h3 hg, h6 _⟩
  · have hg := get_free_pages_eq s1 l fuel h2 (by omega)
    rw [hg, h4]
    have hm : (L.PHYSTOP - PGROUNDUP L.kend) / PGSIZE % 18446744073709551616
        = (L.PHYSTOP - PGROUNDUP L.kend) / PGSIZE := Nat.mod_eq_of_lt (by omega)
    rw [hm, wrapInt32_of_range _ (by omega) (by omega)]

/-- Witness for C20: boot of the small machine, which has three frames. -/
theorem kinit_seeds_accepted_frames_witness :
    L0.Valid ∧ L0.kend ≤ L0.PHYSTOP ∧ FreeList sEmpty.mem sEmpty.freelist [] ∧
    (∀ i, (sEmpty.count i).val = 0) ∧ (L0.PHYSTOP - PGROUNDUP L0.kend) / PGSIZE ≤ 3 ∧
    (L0.PHYSTOP - PGROUNDUP L0.kend) / PGSIZE < 2147483648 ∧
    ∃ s1 l, kinit L0 3 sEmpty = some (.ok () s1) ∧ FreeList s1.mem s1.freelist l ∧
      (∀ g, g ∈ l ↔ g % PGSIZE = 0 ∧ L0.kend ≤ g ∧ g < L0.PHYSTOP) ∧
      (∀ g t, g ∈ l ↔ ¬ ∃ msg, (kfree L0 g t).fault? = some (Fault.panic msg)) ∧
      (∀ g, g ∈ l → l.count g = 1 ∧ (s1.count (g / PGSIZE)).val = 0) ∧
      get_free_pages 3 s1
        = some ((((L0.PHYSTOP - PGROUNDUP L0.kend) / PGSIZE : Nat) : Int), s1) :=
  ⟨by decide, by decide, by decide, fun _ => rfl, by decide, by decide,
    kinit_seeds_accepted_frames L0 sEmpty 3 (by decide) (by decide) (by decide)
      (fun _ => rfl) (by decide) (by decide)⟩


/-! ## Junk patterns and table bounds -/

/-- C17 as stated fails for the first eight bytes of the frame: kfree stores the link
to the previous head there after the fill.  When the single owner of frame 8192
frees it while 12288 heads the free list, bytes 8192 and 8193 of the freed frame
hold 0 and 48 (the low bytes of 12288), not 1; byte 8200 holds 1. -/
theorem kfree_poison_counterexample :
    L0.Valid ∧ IsFrame L0 8192 ∧ (sOwned.count (8192 / PGSIZE)).val = 1 ∧
    (kfree L0 8192 sOwned).fault? = none ∧
    ((kfree L0 8192 sOwned).state.count (8192 / PGSIZE)).val = 0 ∧
    (kfree L0 8192 sOwned).state.mem 8192 = 0 ∧
    (kfree L0 8192 sOwned).state.mem 8193 = 48 ∧
    (kfree L0 8192 sOwned).state.mem 8192 ≠ 1 ∧
    (kfree L0 8192 sOwned).state.mem 8200 = 1 := by
  refine ⟨by decide, by decide, by decide, by decide, by decide, by decide, by decide,
    by decide, by decide⟩

/-- C17, amended. For every kfree(pa) that releases the last reference (the count
becomes 0), once kfree has returned the bytes of the frame from offset 8 to offset
4095 hold the free pattern, byte value 1, and its first 8 bytes hold the link to the
previous head of the free list.  The free pattern is non-zero and differs from the
allocation pattern, byte value 5, which kalloc writes to every one of the 4096 bytes
of a frame it returns. -/
theorem kfree_poisons_behind_link (L : MemLayout) (s : KState) (pa : Nat)
    (hL : L.Valid) (hpa : IsFrame L pa) (hc : (s.count (pa / PGSIZE)).val ≤ 1) :
    ∃ s', kfree L pa s = .ok () s' ∧ (s'.count (pa / PGSIZE)).val = 0 ∧
      (∀ a, pa + 8 ≤ a → a < pa + PGSIZE → s'.mem a = 1) ∧
      read64 s'.mem pa = s.freelist % 18446744073709551616 ∧
      (1 : Byte) ≠ 0 ∧ (1 : Byte) ≠ 5 ∧
      ∀ t v t', kalloc L t = .ok v t' → v ≠ 0 →
        ∀ a, v ≤ a → a < v + PGSIZE → t'.mem a = 5 := by
  have hk := kfree_release L pa s hL hpa (by omega)
  refine ⟨_, hk, ?_, ?_, read64_write64_mod _ pa s.freelist, by decide, by decide, ?_⟩
  · simp only [Function.update_same]
    exact CInt.ofInt_val_of_range 0 (by omega) (by omega)
  · intro a h1 h2
    show write64 (memset s.mem pa 1 PGSIZE) pa s.freelist a = 1
    rw [write64_outside _ pa s.freelist a (Or.inr h1),
      memset_inside s.mem pa 1 PGSIZE a (by omega) h2]
    rfl
  · intro t v t' hka hv a h1 h2
    rcases kalloc_cases L t t' v hka with ⟨_, h0, _⟩ | ⟨_, hvt, _, hs⟩
    · exact absurd h0 hv
    · subst hs
      subst hvt
      show memset t.mem t.freelist 5 PGSIZE a = 5
      rw [memset_inside t.mem t.freelist 5 PGSIZE a h1 h2]
      rfl

/-- Witness for C17: the single owner of frame 8192 frees it. -/
theorem kfree_poisons_behind_link_witness :
    L0.Valid ∧ IsFrame L0 8192 ∧ (sOwned.count (8192 / PGSIZE)).val ≤ 1 ∧
    ∃ s', kfree L0 8192 sOwned = .ok () s' ∧ (s'.count (8192 / PGSIZE)).val = 0 ∧
      (∀ a, 8192 + 8 ≤ a → a < 8192 + PGSIZE → s'.mem a = 1) ∧
      read64 s'.mem 8192 = sOwned.freelist % 18446744073709551616 ∧
      (1 : Byte) ≠ 0 ∧ (1 : Byte) ≠ 5 ∧
      ∀ t v t', kalloc L0 t = .ok v t' → v ≠ 0 →
        ∀ a, v ≤ a → a < v + PGSIZE → t'.mem a = 5 :=
  ⟨by decide, by decide, by decide,
    kfree_poisons_behind_link L0 sOwned 8192 (by decide) (by decide) (by decide)⟩

/-- C19. When PHYSTOP is a multiple of 4096, the index pa / 4096 that kfree or incref
uses once its range check has passed is below the table size PHYSTOP / 4096, and so
is the index kalloc uses for the frame it dequeues whenever the free list holds only
addresses below PHYSTOP; none of the three calls ends in an out-of-bounds access. -/
theorem count_index_in_bounds (L : MemLayout) (s : KState) (pa : Nat)
    (hP : L.PHYSTOP % PGSIZE = 0) :
    (¬ (pa % PGSIZE ≠ 0 ∨ pa < L.kend ∨ pa ≥ L.PHYSTOP) →
      pa / PGSIZE < L.PHYSTOP / PGSIZE) ∧
    (¬ (pa < L.kend ∨ pa ≥ L.PHYSTOP) → pa / PGSIZE < L.PHYSTOP / PGSIZE) ∧
    (kfree L pa s).fault? ≠ some Fault.outOfBounds ∧
    (incref L pa s).fault? ≠ some Fault.outOfBounds ∧
    ∀ l, FreeList s.mem s.freelist l → (∀ g, g ∈ l → g < L.PHYSTOP) →
      (s.freelist ≠ 0 → s.freelist / PGSIZE < L.PHYSTOP / PGSIZE) ∧
      (kalloc L s).fault? ≠ some Fault.outOfBounds := by
  have hidx : ∀ a, a < L.PHYSTOP → a / PGSIZE < L.PHYSTOP / PGSIZE := by
    intro a ha
    unfold PGSIZE at *
    omega
  refine ⟨fun h => hidx pa (by omega), fun h => hidx pa (by omega), ?_, ?_, ?_⟩
  · by_cases hg : pa % PGSIZE ≠ 0 ∨ pa < L.kend ∨ pa ≥ L.PHYSTOP
    · rw [kfree_fatal L pa s hg]
      simp [Outcome.fault?]
    · unfold kfree
      rw [if_neg hg, if_pos (hidx pa (by omega))]
      split <;> simp [Outcome.fault?]
  · by_cases hg : pa < L.kend ∨ pa ≥ L.PHYSTOP
    · rw [incref_fatal L pa s hg]
      simp [Outcome.fault?]
    · unfold incref
      rw [if_neg hg, if_pos (hidx pa (by omega))]
      simp [Outcome.fault?]
  · intro l hfl hlt
    by_cases h0 : s.freelist = 0
    · refine ⟨fun h => absurd h0 h, ?_⟩
      rw [kalloc_null L s h0]
      simp [Outcome.fault?]
    · have hb : s.freelist < L.PHYSTOP := by
        cases l with
        | nil => unfold FreeList at hfl; exact absurd hfl h0
        | cons f l' =>
          unfold FreeList at hfl
          rw [hfl.1]
          exact hlt f (List.mem_cons_self f l')
      refine ⟨fun _ => hidx _ hb, ?_⟩
      rw [kalloc_nonempty L s h0 (hidx _ hb)]
      simp [Outcome.fault?]

/-- Witness for C19 on the small machine. -/
theorem count_index_in_bounds_witness :
    L0.PHYSTOP % PGSIZE = 0 ∧ 16384 / PGSIZE < L0.PHYSTOP / PGSIZE ∧
    (kfree L0 16384 s0).fault? ≠ some Fault.outOfBounds ∧
    (incref L0 20479 s0).fault? ≠ some Fault.outOfBounds ∧
    (kalloc L0 s0).fault? ≠ some Fault.outOfBounds :=
  ⟨by decide, (count_index_in_bounds L0 s0 16384 (by decide)).1 (by decide),
    (count_index_in_bounds L0 s0 16384 (by decide)).2.2.1,
    (count_index_in_bounds L0 s0 20479 (by decide)).2.2.2.1,
    ((count_index_in_bounds L0 s0 0 (by decide)).2.2.2.2 [8192, 12288] (by decide)
      (by decide)).2⟩


/-! ## Lock discipline -/

theorem kfree_ev_fst (L : MemLayout) (pa : Nat) (s : KState) :
    (kfree_ev L pa s).1 = kfree L pa s := by
  unfold kfree_ev kfree
  split
  · rfl
  · split
    · split <;> rfl
    · rfl

theorem kalloc_ev_fst (L : MemLayout) (s : KState) : (kalloc_ev L s).1 = kalloc L s := by
  unfold kalloc_ev kalloc
  simp only
  split
  · split <;> rfl
  · rfl

theorem incref_ev_fst (L : MemLayout) (pa : Nat) (s : KState) :
    (incref_ev L pa s).1 = incref L pa s := by
  unfold incref_ev incref
  split
  · rfl
  · split <;> rfl

theorem get_free_pages_ev_fst (fuel : Nat) (s : KState) :
    (get_free_pages_ev fuel s).1 = get_free_pages fuel s := by
  unfold get_free_pages_ev get_free_pages
  cases get_free_pages_loop s.mem fuel s.freelist 0 <;> rfl

/-- On a null-terminated free list and with fuel for the whole chain, get_free_pages
returns, having acquired and released `kmem.lock`. -/
theorem get_free_pages_ev_total (s : KState) (l : List Nat) (fuel : Nat)
    (hfl : FreeList s.mem s.freelist l) (hfuel : l.length ≤ fuel) :
    (∃ r, (get_free_pages_ev fuel s).1 = some r) ∧
    (get_free_pages_ev fuel s).2 = [.acquire .kmem, .release .kmem] := by
  unfold get_free_pages_ev
  rw [get_free_pages_loop_eq s.mem l s.freelist fuel 0 hfl hfuel]
  exact ⟨⟨_, rfl⟩, rfl⟩

/-- C18. Locks are taken sequentially, never nested.  The traced operations are the
operations themselves.  On every path of kalloc, kfree, incref and get_free_pages,
whether it returns, panics, or does not end, an acquire happens only while no lock is
held.  On every path of kalloc, kfree (its early return for a shared frame
included) and incref that returns or panics, each acquire is followed by the release
of the same lock before any other acquire and before the end of the operation.
On a null-terminated free list get_free_pages returns, with `kmem.lock` acquired and
released; on a free list that does not end in the null link its walk does not end,
and the call then holds `kmem.lock` alone. -/
theorem locks_taken_sequentially (L : MemLayout) (s : KState) (pa fuel : Nat) :
    ((kalloc_ev L s).1 = kalloc L s ∧ (kfree_ev L pa s).1 = kfree L pa s ∧
      (incref_ev L pa s).1 = incref L pa s ∧
      (get_free_pages_ev fuel s).1 = get_free_pages fuel s) ∧
    (NeverNested (kalloc_ev L s).2 ∧ NeverNested (kfree_ev L pa s).2 ∧
      NeverNested (incref_ev L pa s).2 ∧ NeverNested (get_free_pages_ev fuel s).2) ∧
    ((kalloc L s).fault? ≠ some Fault.outOfBounds → SequentialLocks (kalloc_ev L s).2) ∧
    ((kfree L pa s).fault? ≠ some Fault.outOfBounds →
      SequentialLocks (kfree_ev L pa s).2) ∧
    ((s.count (pa / PGSIZE)).val > 1 → (kfree L pa s).fault? = none →
      (kfree_ev L pa s).2 = [.acquire .page_ref, .release .page_ref]) ∧
    ((incref L pa s).fault? ≠ some Fault.outOfBounds →
      SequentialLocks (incref_ev L pa s).2) ∧
    (∀ r, (get_free_pages_ev fuel s).1 = some r →
      SequentialLocks (get_free_pages_ev fuel s).2) ∧
    (∀ l, FreeList s.mem s.freelist l → l.length ≤ fuel →
      (∃ r, (get_free_pages_ev fuel s).1 = some r) ∧
      (get_free_pages_ev fuel s).2 = [.acquire .kmem, .release .kmem] ∧
      SequentialLocks (get_free_pages_ev fuel s).2) ∧
    ((get_free_pages_ev fuel s).1 = none →
      (get_free_pages_ev fuel s).2 = [.acquire .kmem]) := by
  refine ⟨⟨kalloc_ev_fst L s, kfree_ev_fst L pa s, incref_ev_fst L pa s,
    get_free_pages_ev_fst fuel s⟩, ⟨?_, ?_, ?_, ?_⟩, ?_, ?_, ?_, ?_, ?_, ?_, ?_⟩
  · unfold kalloc_ev
    simp only
    split
    · split <;> rfl
    · rfl
  · unfold kfree_ev
    split
    · rfl
    · split
      · split <;> rfl
      · rfl
  · unfold incref_ev
    split
    · rfl
    · split <;> rfl
  · unfold get_free_pages_ev
    cases get_free_pages_loop s.mem fuel s.freelist 0 <;> rfl
  · unfold kalloc kalloc_ev
    simp only
    split
    · split
      · intro _; rfl
      · intro h; simp [Outcome.fault?] at h
    · intro _; rfl
  · unfold kfree kfree_ev
    split
    · intro _; rfl
    · split
      · split <;> (intro _; rfl)
      · intro h; simp [Outcome.fault?] at h
  · intro hc hok
    by_cases hg : pa % PGSIZE ≠ 0 ∨ pa < L.kend ∨ pa ≥ L.PHYSTOP
    · rw [kfree_fatal L pa s hg] at hok
      simp [Outcome.fault?] at hok
    · by_cases hidx : pa / PGSIZE < L.PHYSTOP / PGSIZE
      · unfold kfree_ev
        rw [if_neg hg, if_pos hidx, if_pos hc]
      · unfold kfree at hok
        rw [if_neg hg, if_neg hidx] at hok
        simp [Outcome.fault?] at hok
  · unfold incref incref_ev
    split
    · intro _; rfl
    · split
      · intro _; rfl
      · intro h; simp [Outcome.fault?] at h
  · intro r hr
    unfold get_free_pages_ev at hr ⊢
    cases hl : get_free_pages_loop s.mem fuel s.freelist 0 with
    | none => rw [hl] at hr; cases hr
    | some c => rfl
  · intro l hfl hfuel
    obtain ⟨h1, h2⟩ := get_free_pages_ev_total s l fuel hfl hfuel
    refine ⟨h1, h2, ?_⟩
    rw [h2]
    rfl
  · intro hn
    unfold get_free_pages_ev at hn ⊢
    cases hl : get_free_pages_loop s.mem fuel s.freelist 0 with
    | none => rfl
    | some c => rw [hl] at hn; cases hn

/-- Witness for C18: the lock calls of the four operations on the small machine,
on its well-formed states and on the state whose free list is a cycle. -/
theorem locks_taken_sequentially_witness :
    SequentialLocks (kalloc_ev L0 s0).2 ∧ SequentialLocks (kalloc_ev L0 sEmpty).2 ∧
    SequentialLocks (kfree_ev L0 8192 sOwned).2 ∧
    (kfree_ev L0 8192 sShared).2 = [.acquire .page_ref, .release .page_ref] ∧
    SequentialLocks (incref_ev L0 8192 sOwned).2 ∧
    (FreeList s0.mem s0.freelist [8192, 12288] ∧
      (∃ r, (get_free_pages_ev 2 s0).1 = some r) ∧
      (get_free_pages_ev 2 s0).2 = [.acquire .kmem, .release .kmem] ∧
      SequentialLocks (get_free_pages_ev 2 s0).2) ∧
    ((runOps L0 anyCall [Op.kalloc, Op.kfree 16384, Op.kfree 16384] sBoot).isSome = true ∧
      sCycle.freelist = 16384 ∧ read64 sCycle.mem 16384 = 16384 ∧
      (get_free_pages_ev 40 sCycle).1 = none ∧
      (get_free_pages_ev 40 sCycle).2 = [.acquire .kmem] ∧
      NeverNested (get_free_pages_ev 40 sCycle).2) ∧
    ¬ NeverNested [.acquire .page_ref, .acquire .kmem, .release .kmem,
      .release .page_ref] :=
  ⟨(locks_taken_sequentially L0 s0 8192 2).2.2.1 (by decide),
    (locks_taken_sequentially L0 sEmpty 8192 2).2.2.1 (by decide),
    (locks_taken_sequentially L0 sOwned 8192 2).2.2.2.1 (by decide),
    (locks_taken_sequentially L0 sShared 8192 2).2.2.2.2.1 (by decide) (by decide),
    (locks_taken_sequentially L0 sOwned 8192 2).2.2.2.2.2.1 (by decide),
    ⟨by decide,
      (locks_taken_sequentially L0 s0 8192 2).2.2.2.2.2.2.2.1 [8192, 12288] (by decide)
        (by decide)⟩,
    ⟨by decide, by decide, by decide, Option.isNone_iff_eq_none.mp (by decide),
      (locks_taken_sequentially L0 sCycle 8192 40).2.2.2.2.2.2.2.2
        (Option.isNone_iff_eq_none.mp (by decide)),
      (locks_taken_sequentially L0 sCycle 8192 40).2.1.2.2.2⟩,
    by decide⟩

end Kalloc
